import Mathlib

/-
Verification of the gristmill event-stream scheduler and rendering-context
builder against the repository's specification and its test suite
(src/tests/printers_test.py).  The generator and printer code itself is not
part of the visible sources, so the definitions below are modelled from the
specification (sections 3, 4.2, 4.3 and 6), calibrated against the exact
event trace asserted in test_events_generation.
-/

namespace Gristmill

/-- Modelled from the spec: an index domain with symbolic lower bound, upper
bound and size expression (section 3, Range). -/
structure Range where
  name : String
  lower : String
  upper : String
  size : String
deriving DecidableEq, Repr

/-- Modelled from the spec: an index is a (symbol, Range) pair (section 3). -/
structure Index where
  sym : String
  rnge : Range
deriving DecidableEq, Repr

/-- Modelled from the spec: an indexed-tensor reference with base identifier,
ordered index list and integer exponent (section 3, Factor). -/
structure Factor where
  base : String
  indices : List Index
  exponent : Nat
deriving DecidableEq, Repr

/-- Modelled from the spec: a term of a computation, with phase, opaque
numerator and denominator text, summation indices, indexed factors and opaque
scalar factors (section 3, Term). -/
structure Term where
  phase : Bool
  numerator : String
  denominator : String
  sums : List Index
  factors : List Factor
  other_factors : List String
deriving DecidableEq, Repr

/-- Modelled from the spec: a computation defining a target tensor (base plus
free indices) as a sum of terms, flagged intermediate or result
(section 3, Computation). -/
structure Comput where
  base : String
  indices : List Index
  terms : List Term
  if_interm : Bool
deriving DecidableEq, Repr

/-- Modelled from the spec: the lifecycle events emitted by the scheduler
(section 3, Event).  Events refer to computations by their position in the
evaluation sequence. -/
inductive Event where
  | TensorDecl (comput : Nat)
  | BeginBody
  | BeforeComp (comput : Nat)
  | CompTerm (comput : Nat) (term_idx : Nat)
  | OutOfUse (comput : Nat)
  | EndBody
deriving DecidableEq, Repr

/-- Index of the computation defining base `b`, if any. -/
def definedIdx (seq : List Comput) (b : String) : Option Nat :=
  seq.findIdx? (fun c => c.base == b)

/-- Number of terms of computation `i` (0 when out of range). -/
def numTerms (seq : List Comput) (i : Nat) : Nat :=
  ((seq[i]?).map (fun c => c.terms.length)).getD 0

/-- Whether computation `i` is flagged intermediate. -/
def intermAt (seq : List Comput) (i : Nat) : Bool :=
  ((seq[i]?).map (fun c => c.if_interm)).getD false

/-- Base name of computation `i`. -/
def baseAt (seq : List Comput) (i : Nat) : String :=
  ((seq[i]?).map (fun c => c.base)).getD ""

/-- Term `t` of computation `i`, if any. -/
def getTerm (seq : List Comput) (i t : Nat) : Option Term :=
  (seq[i]?).bind (fun c => c.terms[t]?)

/-- Computations referenced by a term: positions of the computations defining
the bases of its factors, first occurrences only. -/
def termDeps (seq : List Comput) (t : Term) : List Nat :=
  (t.factors.filterMap (fun f => definedIdx seq f.base)).dedup

/-- Dependencies of term `t` of computation `i`. -/
def termDepsAt (seq : List Comput) (i t : Nat) : List Nat :=
  ((getTerm seq i t).map (termDeps seq)).getD []

/-- Whether term `t` of computation `i` references computation `j`. -/
def refTermB (seq : List Comput) (i t j : Nat) : Bool :=
  ((getTerm seq i t).map (fun tm => (termDeps seq tm).contains j)).getD false

/-- Modelled from the spec: the scheduler state (section 4.2): a per-computation
progress counter (whose value is also the next term to compute), a
pending-reference count per computation, an out-of-use flag per computation,
and the accumulated event stream. -/
structure SchedSt where
  nextTerm : Nat → Nat
  refcnt : Nat → Nat
  freed : Nat → Bool
  events : List Event

/-- Computation `i` is fully computed in state `s`. -/
def isDoneAt (seq : List Comput) (s : SchedSt) (i : Nat) : Bool :=
  numTerms seq i ≤ s.nextTerm i

/-- The next uncomputed term of computation `i`, if any. -/
def curTerm (seq : List Comput) (s : SchedSt) (i : Nat) : Option Term :=
  getTerm seq i (s.nextTerm i)

/-- A term may be computed once all computations it references are done. -/
def termEnabledB (seq : List Comput) (s : SchedSt) (t : Term) : Bool :=
  (termDeps seq t).all (isDoneAt seq s)

/-- Computations having at least one term referencing computation `j`,
in evaluation-sequence order. -/
def consumersOf (seq : List Comput) (j : Nat) : List Nat :=
  (List.range seq.length).filter (fun i =>
    ((seq[i]?).map (fun c => c.terms.any (fun t => (termDeps seq t).contains j))).getD false)

/-- Modelled from the spec: number of still-uncomputed term slots referencing
computation `j`, given the per-computation progress counters (section 4.2,
pending-consumer count). -/
def pendingRefs (seq : List Comput) (nt : Nat → Nat) (j : Nat) : Nat :=
  ∑ i ∈ Finset.range seq.length,
    ∑ t ∈ Finset.Ico (nt i) (numTerms seq i), (if refTermB seq i t j then 1 else 0)

/-- Modelled from the spec: emit the BeforeCompute event (on the first term)
and the ComputeTerm event for the next term of computation `i`, advancing its
progress counter (section 4.2). -/
def emitComp (s : SchedSt) (i : Nat) : SchedSt :=
  let k := s.nextTerm i
  { s with
    events := s.events ++ (if k = 0 then [Event.BeforeComp i] else []) ++ [Event.CompTerm i k]
    nextTerm := fun j => if j = i then k + 1 else s.nextTerm j }

/-- Modelled from the spec: decrement the pending-reference count of
computation `j`; when the count reaches zero and `j` is an intermediate not yet
freed, emit its OutOfUse event (section 4.2). -/
def releaseOne (seq : List Comput) (s : SchedSt) (j : Nat) : SchedSt :=
  if s.refcnt j - 1 = 0 ∧ intermAt seq j = true ∧ s.freed j = false then
    { nextTerm := s.nextTerm
      refcnt := fun k => if k = j then s.refcnt j - 1 else s.refcnt k
      freed := fun k => if k = j then true else s.freed k
      events := s.events ++ [Event.OutOfUse j] }
  else
    { s with refcnt := fun k => if k = j then s.refcnt j - 1 else s.refcnt k }

/-- Release every dependency of a just-computed term. -/
def release (seq : List Comput) (deps : List Nat) (s : SchedSt) : SchedSt :=
  deps.foldl (releaseOne seq) s

/-- Compute the next term of computation `i` (which must be the term `t`) and
release the computations it references. -/
def stepComp (seq : List Comput) (s : SchedSt) (i : Nat) (t : Term) : SchedSt :=
  release seq (termDeps seq t) (emitComp s i)

/-- Modelled from the spec: an intermediate with no consumers at all goes out
of use as soon as it is fully computed (section 4.2, OutOfUse is emitted as
soon as the last remaining consumer has finished). -/
def selfFree (seq : List Comput) (s : SchedSt) (i : Nat) : SchedSt :=
  if s.refcnt i = 0 ∧ intermAt seq i = true ∧ s.freed i = false then
    { s with
      freed := fun k => if k = i then true else s.freed k
      events := s.events ++ [Event.OutOfUse i] }
  else s

/-- Modelled from the spec: the driving scheduler loop (section 4.2).  The
stack holds computations to advance, most urgent first.  The computation on
top advances through its terms in term order as long as its next term has all
its dependencies fully computed; when it becomes fully computed its consumers
are pushed (in evaluation-sequence order) so that computations whose last
dependency just became available are driven immediately; otherwise it is
popped.  Fuel bounds the number of iterations. -/
def loopF (seq : List Comput) : Nat → SchedSt → List Nat → SchedSt
  | _, s, [] => s
  | 0, s, _ :: _ => s
  | fuel + 1, s, i :: rest =>
    match curTerm seq s i with
    | none => loopF seq fuel s rest
    | some t =>
      if termEnabledB seq s t = true then
        let s' := stepComp seq s i t
        if isDoneAt seq s' i then
          loopF seq fuel (selfFree seq s' i) (consumersOf seq i ++ i :: rest)
        else
          loopF seq fuel s' (i :: rest)
      else loopF seq fuel s rest

/-- Modelled from the spec: the declaration events, one per intermediate
computation, in evaluation-sequence order (per the event trace asserted in
test_events_generation: results are declared by the caller, not the
generated body). -/
def declEvents (seq : List Comput) : List Event :=
  ((List.range seq.length).filter (intermAt seq)).map Event.TensorDecl

/-- Initial scheduler state: nothing computed, reference counts fully
pending, declaration events followed by BeginBody already emitted. -/
def initSt (seq : List Comput) : SchedSt :=
  { nextTerm := fun _ => 0
    refcnt := pendingRefs seq (fun _ => 0)
    freed := fun _ => false
    events := declEvents seq ++ [Event.BeginBody] }

/-- Total number of terms in the sequence. -/
def totalTerms (seq : List Comput) : Nat :=
  ∑ i ∈ Finset.range seq.length, numTerms seq i

/-- Number of still-uncomputed terms in state `s`. -/
def undone (seq : List Comput) (s : SchedSt) : Nat :=
  ∑ i ∈ Finset.range seq.length, (numTerms seq i - s.nextTerm i)

/-- Termination measure of the scheduler loop. -/
def measureOf (seq : List Comput) (s : SchedSt) (stack : List Nat) : Nat :=
  undone seq s * (seq.length + 1) + stack.length

/-- Fuel sufficient to run the scheduler loop to completion. -/
def schedFuel (seq : List Comput) : Nat :=
  totalTerms seq * (seq.length + 1) + seq.length + 1

/-- Modelled from the spec: the event-generation operation of the base printer
(sections 4.2 and 6, `form_events`): declarations of the intermediates in
sequence order, BeginBody, the driven body events, EndBody. -/
def form_events (seq : List Comput) : List Event :=
  (loopF seq (schedFuel seq) (initSt seq) (List.range seq.length)).events ++ [Event.EndBody]

/-- The sequence is topologically ordered: every computation referenced by a
term of computation `i` comes strictly before `i`. -/
def topoB (seq : List Comput) : Bool :=
  (List.range seq.length).all (fun i =>
    ((seq[i]?).map (fun c =>
      c.terms.all (fun t => (termDeps seq t).all (fun j => decide (j < i))))).getD true)

/-- Every computation has at least one term. -/
def nonEmptyTermsB (seq : List Comput) : Bool :=
  seq.all (fun c => !c.terms.isEmpty)

/-! ## The example evaluation sequence of the test suite

I1 = X·Y, I2 = Y·X, I3 = trace(I1), R1 = I1·I3 + I2, R2 = I1·2, with
I1, I2, I3 flagged intermediate (printers_test.py, eval_seq_deps). -/

/-- The matrix index range of the test fixture. -/
def rangeR : Range := ⟨"R", "0", "n", "n"⟩

/-- Dummy index a. -/
def ia : Index := ⟨"a", rangeR⟩

/-- Dummy index b. -/
def ib : Index := ⟨"b", rangeR⟩

/-- Dummy index c. -/
def ic : Index := ⟨"c", rangeR⟩

/-- I1 = X·Y (intermediate). -/
def defI1 : Comput :=
  ⟨"I1", [ia, ib], [⟨true, "1", "1", [ic], [⟨"X", [ia, ic], 1⟩, ⟨"Y", [ic, ib], 1⟩], []⟩], true⟩

/-- I2 = Y·X (intermediate). -/
def defI2 : Comput :=
  ⟨"I2", [ia, ib], [⟨true, "1", "1", [ic], [⟨"Y", [ia, ic], 1⟩, ⟨"X", [ic, ib], 1⟩], []⟩], true⟩

/-- I3 = trace(I1), a rank-0 (scalar) target (intermediate). -/
def defI3 : Comput :=
  ⟨"I3", [], [⟨true, "1", "1", [ia], [⟨"I1", [ia, ia], 1⟩], []⟩], true⟩

/-- R1 = I1·I3 + I2 (result). -/
def defR1 : Comput :=
  ⟨"R1", [ia, ib],
    [⟨true, "1", "1", [], [⟨"I1", [ia, ib], 1⟩, ⟨"I3", [], 1⟩], []⟩,
     ⟨true, "1", "1", [], [⟨"I2", [ia, ib], 1⟩], []⟩], false⟩

/-- R2 = I1·2 (result, by not being flagged intermediate). -/
def defR2 : Comput :=
  ⟨"R2", [ia, ib], [⟨true, "2", "1", [], [⟨"I1", [ia, ib], 1⟩], []⟩], false⟩

/-- The evaluation sequence of the test fixture eval_seq_deps. -/
def exampleSeq : List Comput := [defI1, defI2, defI3, defR1, defR2]

/-- Events that the scheduler loop may emit inside the body. -/
def bodyKindB : Event → Bool
  | Event.BeforeComp _ => true
  | Event.CompTerm _ _ => true
  | Event.OutOfUse _ => true
  | _ => false

/-- The scheduler loop run with just enough fuel. -/
def runS (seq : List Comput) (s : SchedSt) (stack : List Nat) : SchedSt :=
  loopF seq (measureOf seq s stack) s stack

/-- All computations referenced by any term of computation `i`. -/
def compDeps (seq : List Comput) (i : Nat) : List Nat :=
  ((seq[i]?).map (fun c => (c.terms.map (termDeps seq)).flatten)).getD []

/-- Ordering guarantees carried for every already-emitted OutOfUse event: all
the ComputeTerm events of terms referencing the freed computation, the
BeforeCompute events of the referencing computations, and the freed
computation's own last ComputeTerm, precede it. -/
def GInv (seq : List Comput) (s : SchedSt) : Prop :=
  ∀ j, s.freed j = true →
    (∀ i t, refTermB seq i t j = true →
      List.Sublist [Event.CompTerm i t, Event.OutOfUse j] s.events ∧
      List.Sublist [Event.BeforeComp i, Event.OutOfUse j] s.events) ∧
    (1 ≤ numTerms seq j →
      List.Sublist [Event.CompTerm j (numTerms seq j - 1), Event.OutOfUse j] s.events)

/-- The scheduler state invariant: progress counters are in range, reference
counts agree with the pending references, the freed flags hold exactly for the
fully-computed dead intermediates, the event multiset matches the counters,
every computed term had its dependencies satisfied, and the emitted OutOfUse
events respect the ordering guarantees. -/
structure Inv (seq : List Comput) (s : SchedSt) : Prop where
  hA : ∀ i, s.nextTerm i ≤ numTerms seq i
  hB : ∀ j, s.refcnt j = pendingRefs seq s.nextTerm j
  hC : ∀ j, s.freed j = true ↔
    (intermAt seq j = true ∧ numTerms seq j ≤ s.nextTerm j ∧ s.refcnt j = 0)
  hD : ∀ i t, (s.events).count (Event.CompTerm i t) = if t < s.nextTerm i then 1 else 0
  hE : ∀ i, (s.events).count (Event.BeforeComp i) = if 0 < s.nextTerm i then 1 else 0
  hF : ∀ j, (s.events).count (Event.OutOfUse j) = if s.freed j = true then 1 else 0
  hH : ∀ i t, t < s.nextTerm i → ∀ j ∈ termDepsAt seq i t, numTerms seq j ≤ s.nextTerm j
  hG : GInv seq s

/-- The final scheduler state of the event generation. -/
def finalSt (seq : List Comput) : SchedSt :=
  loopF seq (schedFuel seq) (initSt seq) (List.range seq.length)

/-- Modelled from the spec: rendering context of one index: symbol name, its
Range, and the lower-bound, upper-bound and size texts (section 4.3). -/
structure IndexCtx where
  index : String
  range : Range
  lower : String
  upper : String
  size : String
deriving DecidableEq, Repr

/-- Modelled from the spec: rendering context of one indexed factor: base-name
text (possibly suffixed to encode the exponent) and its index list
(section 4.3). -/
structure FactorCtx where
  base : String
  indices : List IndexCtx
deriving DecidableEq, Repr

/-- Modelled from the spec: rendering context of one term (section 4.3). -/
structure TermCtx where
  phase : String
  numerator : String
  denominator : String
  sums : List IndexCtx
  indexed_factors : List FactorCtx
  other_factors : List String
deriving DecidableEq, Repr

/-- Modelled from the spec: rendering context of one computation
(section 4.3). -/
structure ComputCtx where
  base : String
  indices : List IndexCtx
  terms : List TermCtx
deriving DecidableEq, Repr

/-- Context of one index: its name plus the Range data. -/
def translIndex (i : Index) : IndexCtx :=
  ⟨i.sym, i.rnge, i.rnge.lower, i.rnge.upper, i.rnge.size⟩

/-- Modelled from the spec: context of one indexed factor; an integer exponent
greater than one is encoded as a suffix on the mangled base name, keeping a
single factor entry (section 4.3 and section 3, Factor). -/
def translFactor (mangle : String → List Index → String) (f : Factor) : FactorCtx :=
  ⟨(mangle f.base f.indices) ++
      (if 1 < f.exponent then "**" ++ toString f.exponent else ""),
    f.indices.map translIndex⟩

/-- Context of one term: phase sign, coefficient texts, summation indices,
indexed factors and opaque scalar factors. -/
def translTerm (mangle : String → List Index → String) (t : Term) : TermCtx :=
  ⟨if t.phase then "+" else "-", t.numerator, t.denominator,
    t.sums.map translIndex, t.factors.map (translFactor mangle), t.other_factors⟩

/-- Modelled from the spec: the rendering-context builder of the base printer
(section 4.3, transl): a pure function of the computation and the caller's
name-mangling policy. -/
def transl (mangle : String → List Index → String) (c : Comput) : ComputCtx :=
  ⟨mangle c.base c.indices, c.indices.map translIndex, c.terms.map (translTerm mangle)⟩

/-- The name-mangling policy of the test fixture: base name followed by the
index count. -/
def mangle0 : String → List Index → String :=
  fun base indices => base ++ toString indices.length

/-- The squared factor u[b,a]**2 of the colourful test tensor. -/
def uSq : Factor := ⟨"u", [ib, ia], 2⟩

/-- The transpose term of the colourful test tensor: (2r/3s)·u[b,a]**2. -/
def colourTermA : Term := ⟨true, "2*r/3", "s", [], [uSq], []⟩

/-- The summed term of the colourful test tensor: -(1/2)·Σ_c u[a,c]·v[c,b]·c². -/
def colourTermB : Term :=
  ⟨false, "1/2", "1", [ic], [⟨"u", [ia, ic], 1⟩, ⟨"v", [ic, ib], 1⟩], ["c**2"]⟩

/-- The colourful test tensor x[a,b] (printers_test.py, colourful_tensor). -/
def colourTensor : Comput := ⟨"x", [ia, ib], [colourTermA, colourTermB], false⟩

/-- Modelled from the spec: one line of rendered body text per body event
(section 6, the Printer Contract); the wording stands in for a
target-language statement. -/
def eventLine (seq : List Comput) : Event → Option String
  | Event.BeforeComp i => some ("before " ++ baseAt seq i)
  | Event.CompTerm i t => some ("compute " ++ baseAt seq i ++ " term " ++ toString t)
  | Event.OutOfUse i => some ("free " ++ baseAt seq i)
  | _ => none

/-- Modelled from the spec: the declaration text of a printed evaluation
sequence: one declaration line per intermediate (section 6). -/
def declText (seq : List Comput) : String :=
  String.intercalate "\n"
    (((List.range seq.length).filter (intermAt seq)).map
      (fun i => "declare " ++ baseAt seq i))

/-- Modelled from the spec: the body text of a printed evaluation sequence:
one line per body event (section 6). -/
def bodyText (seq : List Comput) : String :=
  String.intercalate "\n" ((form_events seq).filterMap (eventLine seq))

/-- Modelled from the spec: a concrete printer's doprint without
separate_decls: the declarations followed by the body (section 6 and
printers_test.py, test_full_fortran_printer). -/
def doprint (seq : List Comput) : String := declText seq ++ "\n" ++ bodyText seq

/-- Modelled from the spec: doprint with separate_decls=True: the declaration
text and the body text as two separate strings (section 6). -/
def doprintSep (seq : List Comput) : List String := [declText seq, bodyText seq]

/-! ## Basic step lemmas -/

theorem emitComp_nextTerm_self (s : SchedSt) (i : Nat) :
    (emitComp s i).nextTerm i = s.nextTerm i + 1 := by
  simp [emitComp]

theorem emitComp_nextTerm_ne (s : SchedSt) (i j : Nat) (h : j ≠ i) :
    (emitComp s i).nextTerm j = s.nextTerm j := by
  simp [emitComp, h]

theorem emitComp_refcnt (s : SchedSt) (i : Nat) : (emitComp s i).refcnt = s.refcnt := rfl

theorem emitComp_freed (s : SchedSt) (i : Nat) : (emitComp s i).freed = s.freed := rfl

theorem emitComp_events (s : SchedSt) (i : Nat) :
    (emitComp s i).events = s.events ++
      (if s.nextTerm i = 0 then [Event.BeforeComp i] else []) ++
      [Event.CompTerm i (s.nextTerm i)] := rfl

theorem releaseOne_nextTerm (seq : List Comput) (s : SchedSt) (j : Nat) :
    (releaseOne seq s j).nextTerm = s.nextTerm := by
  unfold releaseOne
  split <;> rfl

theorem releaseOne_refcnt (seq : List Comput) (s : SchedSt) (j k : Nat) :
    (releaseOne seq s j).refcnt k = if k = j then s.refcnt j - 1 else s.refcnt k := by
  unfold releaseOne
  split <;> rfl

theorem releaseOne_freed (seq : List Comput) (s : SchedSt) (j k : Nat) :
    (releaseOne seq s j).freed k =
      if k = j then (s.freed j || (decide (s.refcnt j - 1 = 0) && intermAt seq j))
      else s.freed k := by
  by_cases hk : k = j
  · subst hk
    by_cases hr : s.refcnt k - 1 = 0 <;>
      cases hi : intermAt seq k <;>
        cases hf : s.freed k <;>
          simp [releaseOne, hr, hi, hf]
  · by_cases hr : s.refcnt j - 1 = 0 <;>
      cases hi : intermAt seq j <;>
        cases hf : s.freed j <;>
          simp [releaseOne, hr, hi, hf, hk]

theorem releaseOne_events (seq : List Comput) (s : SchedSt) (j : Nat) :
    (releaseOne seq s j).events = s.events ++
      (if s.refcnt j - 1 = 0 ∧ intermAt seq j = true ∧ s.freed j = false
       then [Event.OutOfUse j] else []) := by
  unfold releaseOne
  split
  · rename_i h
    simp
  · simp

theorem release_cons (seq : List Comput) (j : Nat) (l : List Nat) (s : SchedSt) :
    release seq (j :: l) s = release seq l (releaseOne seq s j) := rfl

theorem release_nil (seq : List Comput) (s : SchedSt) : release seq [] s = s := rfl

theorem release_nextTerm (seq : List Comput) (l : List Nat) (s : SchedSt) :
    (release seq l s).nextTerm = s.nextTerm := by
  induction l generalizing s with
  | nil => rfl
  | cons j l ih => rw [release_cons, ih, releaseOne_nextTerm]

theorem release_refcnt (seq : List Comput) (l : List Nat) (s : SchedSt)
    (hnd : l.Nodup) (k : Nat) :
    (release seq l s).refcnt k = if k ∈ l then s.refcnt k - 1 else s.refcnt k := by
  induction l generalizing s with
  | nil => simp [release_nil]
  | cons j l ih =>
    rw [release_cons]
    have hnd' : l.Nodup := (List.nodup_cons.mp hnd).2
    have hjl : j ∉ l := (List.nodup_cons.mp hnd).1
    rw [ih _ hnd']
    by_cases hk : k = j
    · subst hk
      simp [hjl, releaseOne_refcnt]
    · rw [releaseOne_refcnt]
      simp [hk, List.mem_cons]

theorem release_freed (seq : List Comput) (l : List Nat) (s : SchedSt)
    (hnd : l.Nodup) (k : Nat) :
    (release seq l s).freed k =
      (s.freed k || (decide (k ∈ l) && decide (s.refcnt k - 1 = 0) && intermAt seq k)) := by
  induction l generalizing s with
  | nil => simp [release_nil]
  | cons j l ih =>
    rw [release_cons]
    have hnd' : l.Nodup := (List.nodup_cons.mp hnd).2
    have hjl : j ∉ l := (List.nodup_cons.mp hnd).1
    rw [ih _ hnd']
    by_cases hk : k = j
    · subst hk
      rw [releaseOne_freed, if_pos rfl, releaseOne_refcnt, if_pos rfl]
      simp [hjl, List.mem_cons]
    · rw [releaseOne_freed, if_neg hk, releaseOne_refcnt, if_neg hk]
      simp [hk, List.mem_cons]

theorem release_events_append (seq : List Comput) (l : List Nat) (s : SchedSt) :
    ∃ d, (release seq l s).events = s.events ++ d ∧
      ∀ e ∈ d, ∃ j ∈ l, e = Event.OutOfUse j := by
  induction l generalizing s with
  | nil => exact ⟨[], by simp [release_nil]⟩
  | cons j l ih =>
    rw [release_cons]
    obtain ⟨d, hd, hall⟩ := ih (releaseOne seq s j)
    rw [releaseOne_events] at hd
    refine ⟨(if s.refcnt j - 1 = 0 ∧ intermAt seq j = true ∧ s.freed j = false
      then [Event.OutOfUse j] else []) ++ d, ?_, ?_⟩
    · rw [hd, List.append_assoc]
    · intro e he
      rcases List.mem_append.mp he with h | h
      · split at h
        · refine ⟨j, List.mem_cons_self _ _, ?_⟩
          simpa using h
        · simp at h
      · obtain ⟨j', hj', he'⟩ := hall e h
        exact ⟨j', List.mem_cons_of_mem _ hj', he'⟩

theorem release_count (seq : List Comput) (l : List Nat) (s : SchedSt)
    (hnd : l.Nodup) (m : Nat) :
    ((release seq l s).events).count (Event.OutOfUse m) =
      (s.events).count (Event.OutOfUse m) +
      (if m ∈ l ∧ s.refcnt m - 1 = 0 ∧ intermAt seq m = true ∧ s.freed m = false
       then 1 else 0) := by
  induction l generalizing s with
  | nil => simp [release_nil]
  | cons j l ih =>
    rw [release_cons]
    have hnd' : l.Nodup := (List.nodup_cons.mp hnd).2
    have hjl : j ∉ l := (List.nodup_cons.mp hnd).1
    rw [ih _ hnd', releaseOne_events, List.count_append]
    by_cases hm : m = j
    · subst hm
      have h0 : (if m ∈ l ∧ (releaseOne seq s m).refcnt m - 1 = 0 ∧
          intermAt seq m = true ∧ (releaseOne seq s m).freed m = false
          then 1 else 0) = 0 := by
        simp [hjl]
      rw [h0, add_zero]
      have hmem : m ∈ m :: l := List.mem_cons_self _ _
      by_cases hc : s.refcnt m - 1 = 0 ∧ intermAt seq m = true ∧ s.freed m = false
      · rw [if_pos hc, if_pos ⟨hmem, hc⟩]
        simp
      · rw [if_neg hc, if_neg (by intro h2; exact hc h2.2)]
        simp
    · have hr : (releaseOne seq s j).refcnt m = s.refcnt m := by
        rw [releaseOne_refcnt, if_neg hm]
      have hf : (releaseOne seq s j).freed m = s.freed m := by
        rw [releaseOne_freed, if_neg hm]
      rw [hr, hf]
      have hcnt : (List.count (Event.OutOfUse m)
          (if s.refcnt j - 1 = 0 ∧ intermAt seq j = true ∧ s.freed j = false
           then [Event.OutOfUse j] else [])) = 0 := by
        split
        · rw [List.count_eq_zero]
          intro hmem
          have h := List.mem_singleton.mp hmem
          rw [Event.OutOfUse.injEq] at h
          exact hm h
        · simp
      rw [hcnt, add_zero]
      have hmem : (m ∈ j :: l) ↔ (m ∈ l) := by
        simp [List.mem_cons, hm]
      by_cases hc : m ∈ l ∧ s.refcnt m - 1 = 0 ∧ intermAt seq m = true ∧ s.freed m = false
      · rw [if_pos hc, if_pos ⟨hmem.mpr hc.1, hc.2⟩]
      · rw [if_neg hc, if_neg (by intro h2; exact hc ⟨hmem.mp h2.1, h2.2⟩)]

theorem release_count_notOOU (seq : List Comput) (l : List Nat) (s : SchedSt)
    (e : Event) (he : ∀ j, e ≠ Event.OutOfUse j) :
    ((release seq l s).events).count e = (s.events).count e := by
  obtain ⟨d, hd, hall⟩ := release_events_append seq l s
  rw [hd, List.count_append]
  have : d.count e = 0 := by
    rw [List.count_eq_zero]
    intro hmem
    obtain ⟨j, _, hj⟩ := hall e hmem
    exact he j hj
  omega

theorem selfFree_nextTerm (seq : List Comput) (s : SchedSt) (i : Nat) :
    (selfFree seq s i).nextTerm = s.nextTerm := by
  unfold selfFree
  split <;> rfl

theorem selfFree_refcnt (seq : List Comput) (s : SchedSt) (i : Nat) :
    (selfFree seq s i).refcnt = s.refcnt := by
  unfold selfFree
  split <;> rfl

theorem selfFree_freed (seq : List Comput) (s : SchedSt) (i k : Nat) :
    (selfFree seq s i).freed k =
      if k = i then (s.freed i || (decide (s.refcnt i = 0) && intermAt seq i))
      else s.freed k := by
  by_cases hk : k = i
  · subst hk
    by_cases hr : s.refcnt k = 0 <;>
      cases hi : intermAt seq k <;>
        cases hf : s.freed k <;>
          simp [selfFree, hr, hi, hf]
  · by_cases hr : s.refcnt i = 0 <;>
      cases hi : intermAt seq i <;>
        cases hf : s.freed i <;>
          simp [selfFree, hr, hi, hf, hk]

theorem selfFree_events (seq : List Comput) (s : SchedSt) (i : Nat) :
    (selfFree seq s i).events = s.events ++
      (if s.refcnt i = 0 ∧ intermAt seq i = true ∧ s.freed i = false
       then [Event.OutOfUse i] else []) := by
  unfold selfFree
  split
  · simp
  · simp

theorem stepComp_nextTerm (seq : List Comput) (s : SchedSt) (i : Nat) (t : Term) :
    (stepComp seq s i t).nextTerm = (emitComp s i).nextTerm := by
  unfold stepComp
  rw [release_nextTerm]

/-! ## Scheduler loop basics -/

theorem loopF_nil (seq : List Comput) (f : Nat) (s : SchedSt) :
    loopF seq f s [] = s := by
  cases f <;> rfl

theorem loopF_zero (seq : List Comput) (s : SchedSt) (stack : List Nat) :
    loopF seq 0 s stack = s := by
  cases stack <;> rfl

theorem loopF_cons_none (seq : List Comput) (f : Nat) (s : SchedSt) (i : Nat)
    (rest : List Nat) (h : curTerm seq s i = none) :
    loopF seq (f + 1) s (i :: rest) = loopF seq f s rest := by
  conv_lhs => unfold loopF
  rw [h]

theorem loopF_cons_blocked (seq : List Comput) (f : Nat) (s : SchedSt) (i : Nat)
    (rest : List Nat) (t : Term) (h : curTerm seq s i = some t)
    (he : termEnabledB seq s t = false) :
    loopF seq (f + 1) s (i :: rest) = loopF seq f s rest := by
  conv_lhs => unfold loopF
  rw [h]
  simp [he]

theorem loopF_cons_step_done (seq : List Comput) (f : Nat) (s : SchedSt) (i : Nat)
    (rest : List Nat) (t : Term) (h : curTerm seq s i = some t)
    (he : termEnabledB seq s t = true)
    (hd : isDoneAt seq (stepComp seq s i t) i = true) :
    loopF seq (f + 1) s (i :: rest) =
      loopF seq f (selfFree seq (stepComp seq s i t) i) (consumersOf seq i ++ i :: rest) := by
  conv_lhs => unfold loopF
  rw [h]
  simp [he, hd]

theorem loopF_cons_step_cont (seq : List Comput) (f : Nat) (s : SchedSt) (i : Nat)
    (rest : List Nat) (t : Term) (h : curTerm seq s i = some t)
    (he : termEnabledB seq s t = true)
    (hd : isDoneAt seq (stepComp seq s i t) i = false) :
    loopF seq (f + 1) s (i :: rest) = loopF seq f (stepComp seq s i t) (i :: rest) := by
  conv_lhs => unfold loopF
  rw [h]
  simp [he, hd]

theorem stepComp_nextTerm_le (seq : List Comput) (s : SchedSt) (i : Nat) (t : Term)
    (j : Nat) : s.nextTerm j ≤ (stepComp seq s i t).nextTerm j := by
  rw [stepComp_nextTerm]
  by_cases hj : j = i
  · subst hj
    rw [emitComp_nextTerm_self]
    omega
  · rw [emitComp_nextTerm_ne _ _ _ hj]

theorem loopF_nextTerm_le (seq : List Comput) (f : Nat) :
    ∀ s stack j, s.nextTerm j ≤ (loopF seq f s stack).nextTerm j := by
  induction f with
  | zero =>
    intro s stack j
    rw [loopF_zero]
  | succ f ih =>
    intro s stack j
    match stack with
    | [] => rw [loopF_nil]
    | i :: rest =>
      cases hcur : curTerm seq s i with
      | none =>
        rw [loopF_cons_none _ _ _ _ _ hcur]
        exact ih ..
      | some t =>
        by_cases he : termEnabledB seq s t = true
        · by_cases hd : isDoneAt seq (stepComp seq s i t) i = true
          · rw [loopF_cons_step_done _ _ _ _ _ _ hcur he hd]
            have h1 : s.nextTerm j ≤ (selfFree seq (stepComp seq s i t) i).nextTerm j := by
              rw [selfFree_nextTerm]
              exact stepComp_nextTerm_le ..
            exact le_trans h1 (ih ..)
          · rw [loopF_cons_step_cont _ _ _ _ _ _ hcur he (by simpa using hd)]
            exact le_trans (stepComp_nextTerm_le ..) (ih ..)
        · rw [loopF_cons_blocked _ _ _ _ _ _ hcur (by simpa using he)]
          exact ih ..

theorem stepComp_events (seq : List Comput) (s : SchedSt) (i : Nat) (t : Term) :
    ∃ d, (stepComp seq s i t).events = s.events ++ d ∧ ∀ e ∈ d, bodyKindB e = true := by
  unfold stepComp
  obtain ⟨d, hd, hall⟩ := release_events_append seq (termDeps seq t) (emitComp s i)
  rw [hd, emitComp_events]
  refine ⟨(if s.nextTerm i = 0 then [Event.BeforeComp i] else []) ++
    [Event.CompTerm i (s.nextTerm i)] ++ d, ?_, ?_⟩
  · simp [List.append_assoc]
  · intro e he
    rcases List.mem_append.mp he with h | h
    · rcases List.mem_append.mp h with h2 | h2
      · split at h2
        · rw [List.mem_singleton.mp h2]
          rfl
        · simp at h2
      · rw [List.mem_singleton.mp h2]
        rfl
    · obtain ⟨j, _, hj⟩ := hall e h
      rw [hj]
      rfl

theorem selfFree_events_append (seq : List Comput) (s : SchedSt) (i : Nat) :
    ∃ d, (selfFree seq s i).events = s.events ++ d ∧ ∀ e ∈ d, bodyKindB e = true := by
  rw [selfFree_events]
  refine ⟨_, rfl, ?_⟩
  intro e he
  split at he
  · rw [List.mem_singleton.mp he]
    rfl
  · simp at he

theorem loopF_events (seq : List Comput) (f : Nat) :
    ∀ s stack, ∃ d, (loopF seq f s stack).events = s.events ++ d ∧
      ∀ e ∈ d, bodyKindB e = true := by
  induction f with
  | zero =>
    intro s stack
    rw [loopF_zero]
    exact ⟨[], by simp, by simp⟩
  | succ f ih =>
    intro s stack
    match stack with
    | [] =>
      rw [loopF_nil]
      exact ⟨[], by simp, by simp⟩
    | i :: rest =>
      cases hcur : curTerm seq s i with
      | none =>
        rw [loopF_cons_none _ _ _ _ _ hcur]
        exact ih ..
      | some t =>
        by_cases he : termEnabledB seq s t = true
        · by_cases hd : isDoneAt seq (stepComp seq s i t) i = true
          · rw [loopF_cons_step_done _ _ _ _ _ _ hcur he hd]
            obtain ⟨d1, hd1, ha1⟩ := stepComp_events seq s i t
            obtain ⟨d2, hd2, ha2⟩ := selfFree_events_append seq (stepComp seq s i t) i
            obtain ⟨d3, hd3, ha3⟩ := ih (selfFree seq (stepComp seq s i t) i)
              (consumersOf seq i ++ i :: rest)
            refine ⟨d1 ++ (d2 ++ d3), ?_, ?_⟩
            · rw [hd3, hd2, hd1]
              simp [List.append_assoc]
            · intro e hemem
              rcases List.mem_append.mp hemem with h | h
              · exact ha1 e h
              · rcases List.mem_append.mp h with h2 | h2
                · exact ha2 e h2
                · exact ha3 e h2
          · rw [loopF_cons_step_cont _ _ _ _ _ _ hcur he (by simpa using hd)]
            obtain ⟨d1, hd1, ha1⟩ := stepComp_events seq s i t
            obtain ⟨d3, hd3, ha3⟩ := ih (stepComp seq s i t) (i :: rest)
            refine ⟨d1 ++ d3, ?_, ?_⟩
            · rw [hd3, hd1]
              simp [List.append_assoc]
            · intro e hemem
              rcases List.mem_append.mp hemem with h | h
              · exact ha1 e h
              · exact ha3 e h
        · rw [loopF_cons_blocked _ _ _ _ _ _ hcur (by simpa using he)]
          exact ih ..

/-! ## Termination measure -/

theorem getTerm_some (seq : List Comput) (i t : Nat) (tm : Term)
    (h : getTerm seq i t = some tm) :
    i < seq.length ∧ t < numTerms seq i := by
  unfold getTerm at h
  cases hc : seq[i]? with
  | none =>
    rw [hc] at h
    simp at h
  | some c =>
    rw [hc] at h
    simp only [Option.some_bind] at h
    have hi : i < seq.length := by
      by_contra hn
      rw [List.getElem?_eq_none (by omega)] at hc
      cases hc
    have ht : t < c.terms.length := by
      by_contra hn
      rw [List.getElem?_eq_none (by omega)] at h
      cases h
    refine ⟨hi, ?_⟩
    unfold numTerms
    rw [hc]
    simpa using ht

theorem curTerm_some (seq : List Comput) (s : SchedSt) (i : Nat) (t : Term)
    (h : curTerm seq s i = some t) :
    i < seq.length ∧ s.nextTerm i < numTerms seq i := by
  exact getTerm_some seq i (s.nextTerm i) t h

theorem undone_emitComp (seq : List Comput) (s : SchedSt) (i : Nat)
    (hi : i < seq.length) (hk : s.nextTerm i < numTerms seq i) :
    undone seq (emitComp s i) + 1 = undone seq s := by
  have hmem : i ∈ Finset.range seq.length := Finset.mem_range.mpr hi
  unfold undone
  rw [← Finset.add_sum_erase _ _ hmem, ← Finset.add_sum_erase _ _ hmem]
  have h1 : ∑ x ∈ (Finset.range seq.length).erase i,
      (numTerms seq x - (emitComp s i).nextTerm x)
      = ∑ x ∈ (Finset.range seq.length).erase i, (numTerms seq x - s.nextTerm x) := by
    refine Finset.sum_congr rfl ?_
    intro x hx
    rw [emitComp_nextTerm_ne s i x (Finset.ne_of_mem_erase hx)]
  rw [h1, emitComp_nextTerm_self]
  omega

theorem undone_stepComp (seq : List Comput) (s : SchedSt) (i : Nat) (t : Term)
    (hi : i < seq.length) (hk : s.nextTerm i < numTerms seq i) :
    undone seq (stepComp seq s i t) + 1 = undone seq s := by
  have heq : undone seq (stepComp seq s i t) = undone seq (emitComp s i) := by
    unfold undone
    refine Finset.sum_congr rfl ?_
    intro x _
    rw [stepComp_nextTerm]
  rw [heq]
  exact undone_emitComp seq s i hi hk

theorem undone_selfFree (seq : List Comput) (s : SchedSt) (i : Nat) :
    undone seq (selfFree seq s i) = undone seq s := by
  unfold undone
  refine Finset.sum_congr rfl ?_
  intro x _
  rw [selfFree_nextTerm]

theorem consumersOf_length_le (seq : List Comput) (j : Nat) :
    (consumersOf seq j).length ≤ seq.length := by
  unfold consumersOf
  calc (List.filter _ (List.range seq.length)).length
      ≤ (List.range seq.length).length := List.length_filter_le _ _
    _ = seq.length := List.length_range _

theorem measure_pop_lt (seq : List Comput) (s : SchedSt) (i : Nat) (rest : List Nat) :
    measureOf seq s rest < measureOf seq s (i :: rest) := by
  unfold measureOf
  rw [List.length_cons]
  omega

theorem measure_cont_lt (seq : List Comput) (s : SchedSt) (i : Nat) (t : Term)
    (rest : List Nat) (hcur : curTerm seq s i = some t) :
    measureOf seq (stepComp seq s i t) (i :: rest) < measureOf seq s (i :: rest) := by
  obtain ⟨hi, hk⟩ := curTerm_some seq s i t hcur
  have hu : undone seq (stepComp seq s i t) + 1 = undone seq s :=
    undone_stepComp seq s i t hi hk
  unfold measureOf
  have hmul : undone seq (stepComp seq s i t) * (seq.length + 1) <
      undone seq s * (seq.length + 1) := by
    apply mul_lt_mul_of_pos_right _ (by omega)
    omega
  omega

theorem measure_done_lt (seq : List Comput) (s : SchedSt) (i : Nat) (t : Term)
    (rest : List Nat) (hcur : curTerm seq s i = some t) :
    measureOf seq (selfFree seq (stepComp seq s i t) i) (consumersOf seq i ++ i :: rest)
      < measureOf seq s (i :: rest) := by
  obtain ⟨hi, hk⟩ := curTerm_some seq s i t hcur
  have hu : undone seq (stepComp seq s i t) + 1 = undone seq s :=
    undone_stepComp seq s i t hi hk
  have hC : (consumersOf seq i).length ≤ seq.length := consumersOf_length_le seq i
  unfold measureOf
  rw [undone_selfFree, List.length_append, List.length_cons]
  have hBA : undone seq s * (seq.length + 1) =
      undone seq (stepComp seq s i t) * (seq.length + 1) + (seq.length + 1) := by
    rw [← hu]
    ring
  omega

/-! ## Fuel irrelevance and compositionality -/

theorem measure_cons_pos (seq : List Comput) (s : SchedSt) (i : Nat) (rest : List Nat) :
    1 ≤ measureOf seq s (i :: rest) := by
  unfold measureOf
  rw [List.length_cons]
  omega

theorem loopF_fuel_irrel (seq : List Comput) :
    ∀ N s stack f g, measureOf seq s stack ≤ N → measureOf seq s stack ≤ f →
      measureOf seq s stack ≤ g → loopF seq f s stack = loopF seq g s stack := by
  intro N
  induction N with
  | zero =>
    intro s stack f g hN _ _
    match stack with
    | [] => rw [loopF_nil, loopF_nil]
    | i :: rest =>
      exfalso
      have := measure_cons_pos seq s i rest
      omega
  | succ N ih =>
    intro s stack f g hN hf hg
    match stack with
    | [] => rw [loopF_nil, loopF_nil]
    | i :: rest =>
      have hlen := measure_cons_pos seq s i rest
      cases f with
      | zero => omega
      | succ f =>
        cases g with
        | zero => omega
        | succ g =>
          cases hcur : curTerm seq s i with
          | none =>
            rw [loopF_cons_none _ _ _ _ _ hcur, loopF_cons_none _ _ _ _ _ hcur]
            have hlt := measure_pop_lt seq s i rest
            exact ih s rest f g (by omega) (by omega) (by omega)
          | some t =>
            by_cases he : termEnabledB seq s t = true
            · by_cases hd : isDoneAt seq (stepComp seq s i t) i = true
              · rw [loopF_cons_step_done _ _ _ _ _ _ hcur he hd,
                  loopF_cons_step_done _ _ _ _ _ _ hcur he hd]
                have hlt := measure_done_lt seq s i t rest hcur
                exact ih _ _ f g (by omega) (by omega) (by omega)
              · rw [loopF_cons_step_cont _ _ _ _ _ _ hcur he (by simpa using hd),
                  loopF_cons_step_cont _ _ _ _ _ _ hcur he (by simpa using hd)]
                have hlt := measure_cont_lt seq s i t rest hcur
                exact ih _ _ f g (by omega) (by omega) (by omega)
            · rw [loopF_cons_blocked _ _ _ _ _ _ hcur (by simpa using he),
                loopF_cons_blocked _ _ _ _ _ _ hcur (by simpa using he)]
              have hlt := measure_pop_lt seq s i rest
              exact ih s rest f g (by omega) (by omega) (by omega)

theorem loopF_eq_runS (seq : List Comput) (s : SchedSt) (stack : List Nat) (f : Nat)
    (hf : measureOf seq s stack ≤ f) : loopF seq f s stack = runS seq s stack :=
  loopF_fuel_irrel seq (measureOf seq s stack) s stack f (measureOf seq s stack)
    le_rfl hf le_rfl

theorem runS_nil (seq : List Comput) (s : SchedSt) : runS seq s [] = s :=
  loopF_nil seq _ s

theorem runS_cons_none (seq : List Comput) (s : SchedSt) (i : Nat) (rest : List Nat)
    (h : curTerm seq s i = none) : runS seq s (i :: rest) = runS seq s rest := by
  unfold runS
  have h1 := measure_cons_pos seq s i rest
  obtain ⟨m, hm⟩ : ∃ m, measureOf seq s (i :: rest) = m + 1 :=
    ⟨measureOf seq s (i :: rest) - 1, by omega⟩
  rw [hm, loopF_cons_none _ _ _ _ _ h]
  have hlt := measure_pop_lt seq s i rest
  exact loopF_eq_runS seq s rest m (by omega)

theorem runS_cons_blocked (seq : List Comput) (s : SchedSt) (i : Nat) (rest : List Nat)
    (t : Term) (h : curTerm seq s i = some t) (he : termEnabledB seq s t = false) :
    runS seq s (i :: rest) = runS seq s rest := by
  unfold runS
  have h1 := measure_cons_pos seq s i rest
  obtain ⟨m, hm⟩ : ∃ m, measureOf seq s (i :: rest) = m + 1 :=
    ⟨measureOf seq s (i :: rest) - 1, by omega⟩
  rw [hm, loopF_cons_blocked _ _ _ _ _ _ h he]
  have hlt := measure_pop_lt seq s i rest
  exact loopF_eq_runS seq s rest m (by omega)

theorem runS_cons_step_done (seq : List Comput) (s : SchedSt) (i : Nat) (rest : List Nat)
    (t : Term) (h : curTerm seq s i = some t) (he : termEnabledB seq s t = true)
    (hd : isDoneAt seq (stepComp seq s i t) i = true) :
    runS seq s (i :: rest) =
      runS seq (selfFree seq (stepComp seq s i t) i) (consumersOf seq i ++ i :: rest) := by
  unfold runS
  have h1 := measure_cons_pos seq s i rest
  obtain ⟨m, hm⟩ : ∃ m, measureOf seq s (i :: rest) = m + 1 :=
    ⟨measureOf seq s (i :: rest) - 1, by omega⟩
  rw [hm, loopF_cons_step_done _ _ _ _ _ _ h he hd]
  have hlt := measure_done_lt seq s i t rest h
  exact loopF_eq_runS seq _ _ m (by omega)

theorem runS_cons_step_cont (seq : List Comput) (s : SchedSt) (i : Nat) (rest : List Nat)
    (t : Term) (h : curTerm seq s i = some t) (he : termEnabledB seq s t = true)
    (hd : isDoneAt seq (stepComp seq s i t) i = false) :
    runS seq s (i :: rest) = runS seq (stepComp seq s i t) (i :: rest) := by
  unfold runS
  have h1 := measure_cons_pos seq s i rest
  obtain ⟨m, hm⟩ : ∃ m, measureOf seq s (i :: rest) = m + 1 :=
    ⟨measureOf seq s (i :: rest) - 1, by omega⟩
  rw [hm, loopF_cons_step_cont _ _ _ _ _ _ h he hd]
  have hlt := measure_cont_lt seq s i t rest h
  exact loopF_eq_runS seq _ _ m (by omega)

theorem runS_nextTerm_le (seq : List Comput) (s : SchedSt) (stack : List Nat) (j : Nat) :
    s.nextTerm j ≤ (runS seq s stack).nextTerm j :=
  loopF_nextTerm_le seq _ s stack j

theorem runS_append (seq : List Comput) :
    ∀ N s a b, measureOf seq s (a ++ b) ≤ N →
      runS seq s (a ++ b) = runS seq (runS seq s a) b := by
  intro N
  induction N with
  | zero =>
    intro s a b hN
    match a with
    | [] => rw [List.nil_append, runS_nil]
    | i :: a' =>
      exfalso
      have h1 := measure_cons_pos seq s i (a' ++ b)
      rw [List.cons_append] at hN
      omega
  | succ N ih =>
    intro s a b hN
    match a with
    | [] => rw [List.nil_append, runS_nil]
    | i :: a' =>
      rw [List.cons_append] at hN ⊢
      cases hcur : curTerm seq s i with
      | none =>
        rw [runS_cons_none _ _ _ _ hcur, runS_cons_none _ _ _ _ hcur]
        have hlt := measure_pop_lt seq s i (a' ++ b)
        exact ih s a' b (by omega)
      | some t =>
        by_cases he : termEnabledB seq s t = true
        · by_cases hd : isDoneAt seq (stepComp seq s i t) i = true
          · rw [runS_cons_step_done _ _ _ _ _ hcur he hd,
              runS_cons_step_done _ _ _ _ _ hcur he hd]
            have hsplit : consumersOf seq i ++ i :: (a' ++ b) =
                (consumersOf seq i ++ i :: a') ++ b := by
              rw [List.append_assoc, List.cons_append]
            rw [hsplit]
            have hlt := measure_done_lt seq s i t (a' ++ b) hcur
            rw [hsplit] at hlt
            exact ih _ _ b (by omega)
          · rw [runS_cons_step_cont _ _ _ _ _ hcur he (by simpa using hd),
              runS_cons_step_cont _ _ _ _ _ hcur he (by simpa using hd)]
            have hlt := measure_cont_lt seq s i t (a' ++ b) hcur
            rw [← List.cons_append] at hlt ⊢
            exact ih _ _ b (by rw [List.cons_append] at hlt ⊢; omega)
        · rw [runS_cons_blocked _ _ _ _ _ hcur (by simpa using he),
            runS_cons_blocked _ _ _ _ _ hcur (by simpa using he)]
          have hlt := measure_pop_lt seq s i (a' ++ b)
          exact ih s a' b (by omega)

theorem runS_append' (seq : List Comput) (s : SchedSt) (a b : List Nat) :
    runS seq s (a ++ b) = runS seq (runS seq s a) b :=
  runS_append seq (measureOf seq s (a ++ b)) s a b le_rfl

/-! ## Completion of the schedule under topological order -/

theorem termDeps_subset_compDeps (seq : List Comput) (i t : Nat) (tm : Term)
    (h : getTerm seq i t = some tm) : ∀ j ∈ termDeps seq tm, j ∈ compDeps seq i := by
  intro j hj
  unfold getTerm at h
  cases hc : seq[i]? with
  | none =>
    rw [hc] at h
    simp at h
  | some c =>
    rw [hc] at h
    simp only [Option.some_bind] at h
    unfold compDeps
    rw [hc]
    simp only [Option.map_some', Option.getD_some]
    rw [List.mem_flatten]
    refine ⟨termDeps seq tm, ?_, hj⟩
    exact List.mem_map.mpr ⟨tm, List.getElem?_mem h, rfl⟩

theorem termEnabled_of_deps_done (seq : List Comput) (s : SchedSt) (i : Nat) (tm : Term)
    (h : curTerm seq s i = some tm)
    (hdeps : ∀ j ∈ compDeps seq i, isDoneAt seq s j = true) :
    termEnabledB seq s tm = true := by
  unfold termEnabledB
  rw [List.all_eq_true]
  intro j hj
  exact hdeps j (termDeps_subset_compDeps seq i (s.nextTerm i) tm h j hj)

theorem isDoneAt_mono (seq : List Comput) {s s' : SchedSt}
    (h : ∀ j, s.nextTerm j ≤ s'.nextTerm j) {i : Nat}
    (hd : isDoneAt seq s i = true) : isDoneAt seq s' i = true := by
  unfold isDoneAt at *
  have h1 := h i
  simp only [decide_eq_true_eq] at *
  omega

theorem curTerm_none_done (seq : List Comput) (s : SchedSt) (i : Nat)
    (hi : i < seq.length) (hcur : curTerm seq s i = none) :
    isDoneAt seq s i = true := by
  unfold curTerm getTerm at hcur
  rw [List.getElem?_eq_getElem hi] at hcur
  simp only [Option.some_bind] at hcur
  rw [List.getElem?_eq_none_iff] at hcur
  unfold isDoneAt numTerms
  rw [List.getElem?_eq_getElem hi]
  simp only [Option.map_some', Option.getD_some, decide_eq_true_eq]
  exact hcur

theorem runS_single_done (seq : List Comput) :
    ∀ u s i, undone seq s ≤ u → i < seq.length →
      (∀ j ∈ compDeps seq i, isDoneAt seq s j = true) →
      isDoneAt seq (runS seq s [i]) i = true := by
  intro u
  induction u with
  | zero =>
    intro s i hu hi _
    have hdone : isDoneAt seq s i = true := by
      unfold isDoneAt
      simp only [decide_eq_true_eq]
      by_contra hn
      have hle : (numTerms seq i - s.nextTerm i) ≤ undone seq s :=
        Finset.single_le_sum (f := fun x => numTerms seq x - s.nextTerm x)
          (fun x _ => Nat.zero_le _) (Finset.mem_range.mpr hi)
      omega
    exact isDoneAt_mono seq (fun j => runS_nextTerm_le seq s [i] j) hdone
  | succ u ih =>
    intro s i hu hi hdeps
    by_cases hdone : isDoneAt seq s i = true
    · exact isDoneAt_mono seq (fun j => runS_nextTerm_le seq s [i] j) hdone
    cases hcur : curTerm seq s i with
    | none => exact absurd (curTerm_none_done seq s i hi hcur) hdone
    | some t =>
      have he : termEnabledB seq s t = true := termEnabled_of_deps_done seq s i t hcur hdeps
      by_cases hd : isDoneAt seq (stepComp seq s i t) i = true
      · rw [runS_cons_step_done _ _ _ _ _ hcur he hd]
        have h1 : isDoneAt seq (selfFree seq (stepComp seq s i t) i) i = true := by
          unfold isDoneAt at hd ⊢
          rw [selfFree_nextTerm]
          exact hd
        exact isDoneAt_mono seq (fun j => runS_nextTerm_le seq _ _ j) h1
      · rw [runS_cons_step_cont _ _ _ _ _ hcur he (by simpa using hd)]
        obtain ⟨_, hk⟩ := curTerm_some seq s i t hcur
        have hu2 := undone_stepComp seq s i t hi hk
        refine ih (stepComp seq s i t) i (by omega) hi ?_
        intro j hj
        exact isDoneAt_mono seq (fun j' => stepComp_nextTerm_le seq s i t j') (hdeps j hj)

theorem topoB_deps_lt (seq : List Comput) (ht : topoB seq = true) (i : Nat)
    (hi : i < seq.length) : ∀ j ∈ compDeps seq i, j < i := by
  intro j hj
  unfold topoB at ht
  rw [List.all_eq_true] at ht
  have h1 := ht i (List.mem_range.mpr hi)
  rw [List.getElem?_eq_getElem hi] at h1
  simp only [Option.map_some', Option.getD_some, List.all_eq_true] at h1
  unfold compDeps at hj
  rw [List.getElem?_eq_getElem hi] at hj
  simp only [Option.map_some', Option.getD_some] at hj
  rw [List.mem_flatten] at hj
  obtain ⟨l, hl, hjl⟩ := hj
  obtain ⟨tm, htm, rfl⟩ := List.mem_map.mp hl
  have h3 := h1 tm htm j hjl
  simpa using h3

theorem runS_range'_done (seq : List Comput) (ht : topoB seq = true) :
    ∀ cnt m s, seq.length - m ≤ cnt → (∀ j, j < m → isDoneAt seq s j = true) →
      ∀ j, j < seq.length →
        isDoneAt seq (runS seq s (List.range' m (seq.length - m))) j = true := by
  intro cnt
  induction cnt with
  | zero =>
    intro m s hcnt hdone j hj
    have h0 : seq.length - m = 0 := by omega
    rw [h0, List.range'_zero, runS_nil]
    exact hdone j (by omega)
  | succ cnt ih =>
    intro m s hcnt hdone j hj
    by_cases hm : seq.length ≤ m
    · have h0 : seq.length - m = 0 := by omega
      rw [h0, List.range'_zero, runS_nil]
      exact hdone j (by omega)
    · push_neg at hm
      obtain ⟨d, hd⟩ : ∃ d, seq.length - m = d + 1 := ⟨seq.length - m - 1, by omega⟩
      rw [hd, List.range'_succ]
      have hsplit : (m :: List.range' (m + 1) d) = [m] ++ List.range' (m + 1) d := rfl
      rw [hsplit, runS_append']
      have hs1done : isDoneAt seq (runS seq s [m]) m = true := by
        refine runS_single_done seq (undone seq s) s m le_rfl hm ?_
        intro j' hj'
        exact hdone j' (topoB_deps_lt seq ht m hm j' hj')
      have hall : ∀ j', j' < m + 1 → isDoneAt seq (runS seq s [m]) j' = true := by
        intro j' hj'
        by_cases hj'm : j' = m
        · rw [hj'm]
          exact hs1done
        · exact isDoneAt_mono seq (fun x => runS_nextTerm_le seq s [m] x)
            (hdone j' (by omega))
      have hd2 : seq.length - (m + 1) = d := by omega
      have := ih (m + 1) (runS seq s [m]) (by omega) hall j hj
      rw [hd2] at this
      exact this

theorem undone_init (seq : List Comput) : undone seq (initSt seq) = totalTerms seq := by
  unfold undone totalTerms initSt
  simp

theorem measure_init_le (seq : List Comput) :
    measureOf seq (initSt seq) (List.range seq.length) ≤ schedFuel seq := by
  unfold measureOf schedFuel
  rw [undone_init, List.length_range]
  omega

theorem final_all_done (seq : List Comput) (ht : topoB seq = true) :
    ∀ j, j < seq.length →
      isDoneAt seq (loopF seq (schedFuel seq) (initSt seq) (List.range seq.length)) j
        = true := by
  intro j hj
  rw [loopF_eq_runS seq _ _ _ (measure_init_le seq)]
  have hr : List.range seq.length = List.range' 0 (seq.length - 0) := by
    rw [Nat.sub_zero, List.range_eq_range']
  rw [hr]
  exact runS_range'_done seq ht seq.length 0 (initSt seq) (by omega)
    (fun j' hj' => absurd hj' (Nat.not_lt_zero j')) j hj

/-! ## Helper facts for the invariant -/

theorem refTermB_lt (seq : List Comput) (i t j : Nat) (h : refTermB seq i t j = true) :
    i < seq.length ∧ t < numTerms seq i := by
  unfold refTermB at h
  cases hg : getTerm seq i t with
  | none =>
    rw [hg] at h
    simp at h
  | some tm => exact getTerm_some seq i t tm hg

theorem refTermB_iff_mem (seq : List Comput) (i t : Nat) (tm : Term)
    (hg : getTerm seq i t = some tm) (j : Nat) :
    refTermB seq i t j = true ↔ j ∈ termDeps seq tm := by
  unfold refTermB
  rw [hg]
  simp

theorem definedIdx_lt (seq : List Comput) (b : String) (j : Nat)
    (h : definedIdx seq b = some j) : j < seq.length := by
  unfold definedIdx at h
  rw [List.findIdx?_eq_some_iff_findIdx_eq] at h
  exact h.1

theorem termDeps_lt (seq : List Comput) (tm : Term) (j : Nat)
    (h : j ∈ termDeps seq tm) : j < seq.length := by
  unfold termDeps at h
  rw [List.mem_dedup, List.mem_filterMap] at h
  obtain ⟨f, _, hf⟩ := h
  exact definedIdx_lt seq f.base j hf

theorem termDeps_nodup (seq : List Comput) (tm : Term) : (termDeps seq tm).Nodup :=
  List.nodup_dedup _

theorem intermAt_lt (seq : List Comput) (j : Nat) (h : intermAt seq j = true) :
    j < seq.length := by
  unfold intermAt at h
  cases hc : seq[j]? with
  | none =>
    rw [hc] at h
    simp at h
  | some c =>
    by_contra hn
    rw [List.getElem?_eq_none (by omega)] at hc
    cases hc

theorem numTerms_pos (seq : List Comput) (hne : nonEmptyTermsB seq = true) (j : Nat)
    (hj : j < seq.length) : 1 ≤ numTerms seq j := by
  unfold nonEmptyTermsB at hne
  rw [List.all_eq_true] at hne
  have h1 := hne seq[j] (List.getElem_mem hj)
  unfold numTerms
  rw [List.getElem?_eq_getElem hj]
  simp only [Option.map_some', Option.getD_some]
  cases he : seq[j].terms with
  | nil =>
    rw [he] at h1
    simp at h1
  | cons a l => simp [he]

theorem pendingRefs_emitComp (seq : List Comput) (s : SchedSt) (i : Nat)
    (hi : i < seq.length) (hk : s.nextTerm i < numTerms seq i) (j : Nat) :
    pendingRefs seq s.nextTerm j =
      (if refTermB seq i (s.nextTerm i) j = true then 1 else 0) +
      pendingRefs seq (emitComp s i).nextTerm j := by
  unfold pendingRefs
  have hmem : i ∈ Finset.range seq.length := Finset.mem_range.mpr hi
  rw [← Finset.add_sum_erase _ _ hmem, ← Finset.add_sum_erase _ _ hmem]
  have herase : ∑ x ∈ (Finset.range seq.length).erase i,
      (∑ t' ∈ Finset.Ico ((emitComp s i).nextTerm x) (numTerms seq x),
        (if refTermB seq x t' j = true then 1 else 0))
      = ∑ x ∈ (Finset.range seq.length).erase i,
      (∑ t' ∈ Finset.Ico (s.nextTerm x) (numTerms seq x),
        (if refTermB seq x t' j = true then 1 else 0)) := by
    refine Finset.sum_congr rfl ?_
    intro x hx
    rw [emitComp_nextTerm_ne s i x (Finset.ne_of_mem_erase hx)]
  rw [herase, emitComp_nextTerm_self,
    Finset.sum_eq_sum_Ico_succ_bot hk (fun t' => if refTermB seq i t' j = true then 1 else 0)]
  omega

theorem pendingRefs_zero (seq : List Comput) (nt : Nat → Nat) (j : Nat)
    (h : pendingRefs seq nt j = 0) :
    ∀ i' t', refTermB seq i' t' j = true → t' < nt i' := by
  intro i' t' href
  by_contra hge
  push_neg at hge
  obtain ⟨hi', ht'⟩ := refTermB_lt seq i' t' j href
  have h1 : (1 : Nat) ≤ ∑ t'' ∈ Finset.Ico (nt i') (numTerms seq i'),
      (if refTermB seq i' t'' j = true then 1 else 0) := by
    have hmem : t' ∈ Finset.Ico (nt i') (numTerms seq i') := Finset.mem_Ico.mpr ⟨hge, ht'⟩
    calc (1 : Nat) = (if refTermB seq i' t' j = true then 1 else 0) := by rw [if_pos href]
      _ ≤ _ := Finset.single_le_sum
        (f := fun t'' => if refTermB seq i' t'' j = true then 1 else 0)
        (fun _ _ => Nat.zero_le _) hmem
  have h2 : (∑ t'' ∈ Finset.Ico (nt i') (numTerms seq i'),
      (if refTermB seq i' t'' j = true then 1 else 0)) ≤ pendingRefs seq nt j :=
    Finset.single_le_sum (f := fun x => ∑ t'' ∈ Finset.Ico (nt x) (numTerms seq x),
      (if refTermB seq x t'' j = true then 1 else 0))
      (fun _ _ => Nat.zero_le _) (Finset.mem_range.mpr hi')
  omega

theorem pendingRefs_done (seq : List Comput) (nt : Nat → Nat)
    (h : ∀ x, x < seq.length → numTerms seq x ≤ nt x) (j : Nat) :
    pendingRefs seq nt j = 0 := by
  unfold pendingRefs
  refine Finset.sum_eq_zero ?_
  intro x hx
  rw [Finset.Ico_eq_empty (by have := h x (Finset.mem_range.mp hx); omega), Finset.sum_empty]

theorem mem_of_count_one {l : List Event} {e : Event} (h : l.count e = 1) : e ∈ l :=
  List.count_pos_iff.mp (by omega)

theorem pair_sublist_append {a b : Event} {l1 l2 : List Event} (h1 : a ∈ l1) (h2 : b ∈ l2) :
    List.Sublist [a, b] (l1 ++ l2) := by
  have hs := List.Sublist.append (List.singleton_sublist.mpr h1)
    (List.singleton_sublist.mpr h2)
  simpa using hs

theorem sublist_grow {x e : List Event} (h : List.Sublist x e) (d : List Event) :
    List.Sublist x (e ++ d) :=
  h.trans (List.sublist_append_left e d)

theorem count_CT_emitComp (s : SchedSt) (i : Nat)
    (hD : ∀ i' t', (s.events).count (Event.CompTerm i' t') =
      if t' < s.nextTerm i' then 1 else 0) :
    ∀ i' t', ((emitComp s i).events).count (Event.CompTerm i' t') =
      if t' < (emitComp s i).nextTerm i' then 1 else 0 := by
  intro i' t'
  rw [emitComp_events, List.count_append, List.count_append]
  have hbc : (if s.nextTerm i = 0 then [Event.BeforeComp i] else []).count
      (Event.CompTerm i' t') = 0 := by
    split <;> simp [List.count_singleton]
  rw [hbc, hD i' t']
  by_cases hii : i' = i
  · subst hii
    rw [emitComp_nextTerm_self]
    by_cases ht' : t' = s.nextTerm i'
    · subst ht'
      simp [List.count_singleton]
    · have hc1 : (List.count (Event.CompTerm i' t') [Event.CompTerm i' (s.nextTerm i')]) = 0 := by
        simp [List.count_singleton]
        intro h
        exact absurd h.symm ht'
      rw [hc1]
      by_cases hlt : t' < s.nextTerm i'
      · rw [if_pos hlt, if_pos (by omega)]
      · rw [if_neg hlt, if_neg (by omega)]
  · rw [emitComp_nextTerm_ne s i i' hii]
    have hc1 : (List.count (Event.CompTerm i' t') [Event.CompTerm i (s.nextTerm i)]) = 0 := by
      simp [List.count_singleton]
      intro h
      exact absurd h.symm hii
    rw [hc1]
    omega

theorem count_BC_emitComp (s : SchedSt) (i : Nat)
    (hE : ∀ i', (s.events).count (Event.BeforeComp i') =
      if 0 < s.nextTerm i' then 1 else 0) :
    ∀ i', ((emitComp s i).events).count (Event.BeforeComp i') =
      if 0 < (emitComp s i).nextTerm i' then 1 else 0 := by
  intro i'
  rw [emitComp_events, List.count_append, List.count_append]
  have hct : (List.count (Event.BeforeComp i') [Event.CompTerm i (s.nextTerm i)]) = 0 := by
    simp [List.count_singleton]
  rw [hct, add_zero, hE i']
  by_cases hii : i' = i
  · subst hii
    rw [emitComp_nextTerm_self]
    by_cases hz : s.nextTerm i' = 0
    · rw [hz, if_pos rfl]
      simp [List.count_singleton, hz]
    · rw [if_neg hz]
      simp [List.count_singleton]
      omega
  · rw [emitComp_nextTerm_ne s i i' hii]
    have hbc : (if s.nextTerm i = 0 then [Event.BeforeComp i] else []).count
        (Event.BeforeComp i') = 0 := by
      split
      · simp [List.count_singleton]
        intro h
        exact absurd h.symm hii
      · simp
    rw [hbc, add_zero]

theorem count_OOU_emitComp (s : SchedSt) (i : Nat) (j : Nat) :
    ((emitComp s i).events).count (Event.OutOfUse j) =
      (s.events).count (Event.OutOfUse j) := by
  rw [emitComp_events, List.count_append, List.count_append]
  have h1 : (if s.nextTerm i = 0 then [Event.BeforeComp i] else []).count
      (Event.OutOfUse j) = 0 := by
    split <;> simp [List.count_singleton]
  have h2 : (List.count (Event.OutOfUse j) [Event.CompTerm i (s.nextTerm i)]) = 0 := by
    simp [List.count_singleton]
  omega

/-! ## The scheduler invariant -/

theorem GInv_release (seq : List Comput) (l : List Nat) :
    ∀ s : SchedSt, l.Nodup →
    (∀ j ∈ l, s.refcnt j - 1 = 0 → intermAt seq j = true → s.freed j = false →
      ((∀ i' t', refTermB seq i' t' j = true →
          Event.CompTerm i' t' ∈ s.events ∧ Event.BeforeComp i' ∈ s.events) ∧
       (1 ≤ numTerms seq j → Event.CompTerm j (numTerms seq j - 1) ∈ s.events))) →
    GInv seq s → GInv seq (release seq l s) := by
  induction l with
  | nil =>
    intro s _ _ hG
    exact hG
  | cons j l ih =>
    intro s hnd H hG
    have hnd' : l.Nodup := (List.nodup_cons.mp hnd).2
    have hjl : j ∉ l := (List.nodup_cons.mp hnd).1
    rw [release_cons]
    refine ih (releaseOne seq s j) hnd' ?_ ?_
    · intro j' hj' hr' hint' hf'
      have hne : j' ≠ j := fun h => hjl (h ▸ hj')
      rw [releaseOne_refcnt, if_neg hne] at hr'
      have hmemev : ∀ e : Event, e ∈ s.events → e ∈ (releaseOne seq s j).events := by
        intro e he
        rw [releaseOne_events]
        exact List.mem_append_left _ he
      have hH' := H j' (List.mem_cons_of_mem _ hj') hr' hint'
        (by rw [releaseOne_freed, if_neg hne] at hf'; exact hf')
      refine ⟨fun i' t' href => ⟨hmemev _ (hH'.1 i' t' href).1, hmemev _ (hH'.1 i' t' href).2⟩,
        fun hpos => hmemev _ (hH'.2 hpos)⟩
    · intro j' hfj'
      rw [releaseOne_events]
      rw [releaseOne_freed] at hfj'
      by_cases hj' : j' = j
      · subst hj'
        rw [if_pos rfl] at hfj'
        rcases Bool.or_eq_true_iff.mp hfj' with hold | hnew
        · have hGold := hG j' hold
          refine ⟨fun i' t' href => ⟨sublist_grow (hGold.1 i' t' href).1 _,
            sublist_grow (hGold.1 i' t' href).2 _⟩,
            fun hpos => sublist_grow (hGold.2 hpos) _⟩
        · rw [Bool.and_eq_true, decide_eq_true_eq] at hnew
          obtain ⟨hr0, hint⟩ := hnew
          by_cases hf0 : s.freed j' = false
          · have hcond : s.refcnt j' - 1 = 0 ∧ intermAt seq j' = true ∧ s.freed j' = false :=
              ⟨hr0, hint, hf0⟩
            rw [if_pos hcond]
            have hH' := H j' (List.mem_cons_self _ _) hr0 hint hf0
            refine ⟨fun i' t' href => ?_, fun hpos => ?_⟩
            · exact ⟨pair_sublist_append (hH'.1 i' t' href).1 (List.mem_singleton.mpr rfl),
                pair_sublist_append (hH'.1 i' t' href).2 (List.mem_singleton.mpr rfl)⟩
            · exact pair_sublist_append (hH'.2 hpos) (List.mem_singleton.mpr rfl)
          · have hold : s.freed j' = true := by
              cases h : s.freed j'
              · exact absurd h hf0
              · rfl
            have hGold := hG j' hold
            refine ⟨fun i' t' href => ⟨sublist_grow (hGold.1 i' t' href).1 _,
              sublist_grow (hGold.1 i' t' href).2 _⟩,
              fun hpos => sublist_grow (hGold.2 hpos) _⟩
      · rw [if_neg hj'] at hfj'
        have hGold := hG j' hfj'
        refine ⟨fun i' t' href => ⟨sublist_grow (hGold.1 i' t' href).1 _,
          sublist_grow (hGold.1 i' t' href).2 _⟩,
          fun hpos => sublist_grow (hGold.2 hpos) _⟩

theorem count_decl_zero (seq : List Comput) (e : Event)
    (he : ∀ i, e ≠ Event.TensorDecl i) (hb : e ≠ Event.BeginBody) :
    (declEvents seq ++ [Event.BeginBody]).count e = 0 := by
  rw [List.count_eq_zero]
  intro hmem
  rcases List.mem_append.mp hmem with h | h
  · unfold declEvents at h
    obtain ⟨i, _, hi⟩ := List.mem_map.mp h
    exact he i hi.symm
  · exact hb (List.mem_singleton.mp h)

theorem inv_init (seq : List Comput) (hne : nonEmptyTermsB seq = true) :
    Inv seq (initSt seq) := by
  constructor
  case hA => intro i; exact Nat.zero_le _
  case hB => intro j; rfl
  case hC =>
    intro j
    constructor
    · intro h
      exact absurd h (by simp [initSt])
    · rintro ⟨hint, hdone, _⟩
      exfalso
      have hj := intermAt_lt seq j hint
      have := numTerms_pos seq hne j hj
      simp only [initSt] at hdone
      omega
  case hD =>
    intro i t
    have h0 : (initSt seq).nextTerm i = 0 := rfl
    rw [h0, if_neg (by omega)]
    exact count_decl_zero seq _ (fun i' => by intro h; cases h) (by intro h; cases h)
  case hE =>
    intro i
    have h0 : (initSt seq).nextTerm i = 0 := rfl
    rw [h0, if_neg (by omega)]
    exact count_decl_zero seq _ (fun i' => by intro h; cases h) (by intro h; cases h)
  case hF =>
    intro j
    have h0 : (initSt seq).freed j = false := rfl
    rw [h0]
    simp only [Bool.false_eq_true, if_false]
    exact count_decl_zero seq _ (fun i' => by intro h; cases h) (by intro h; cases h)
  case hH =>
    intro i t ht
    have h0 : (initSt seq).nextTerm i = 0 := rfl
    rw [h0] at ht
    omega
  case hG =>
    intro j hj
    exact absurd hj (by simp [initSt])

theorem inv_step (seq : List Comput) (s : SchedSt) (i : Nat) (t : Term)
    (hinv : Inv seq s) (hcur : curTerm seq s i = some t)
    (hen : termEnabledB seq s t = true) :
    Inv seq (if isDoneAt seq (stepComp seq s i t) i = true
             then selfFree seq (stepComp seq s i t) i
             else stepComp seq s i t) := by
  obtain ⟨hi, hk⟩ := curTerm_some seq s i t hcur
  have hterm : getTerm seq i (s.nextTerm i) = some t := hcur
  have hnd : (termDeps seq t).Nodup := termDeps_nodup seq t
  have hdl : ∀ j ∈ termDeps seq t, isDoneAt seq s j = true := by
    unfold termEnabledB at hen
    rw [List.all_eq_true] at hen
    exact hen
  have hdl' : ∀ j ∈ termDeps seq t, numTerms seq j ≤ s.nextTerm j := by
    intro j hj
    have h1 := hdl j hj
    unfold isDoneAt at h1
    simpa using h1
  have hil : i ∉ termDeps seq t := by
    intro hmem
    have := hdl' i hmem
    omega
  have h2nt : ∀ j, (stepComp seq s i t).nextTerm j =
      if j = i then s.nextTerm i + 1 else s.nextTerm j := by
    intro j
    rw [stepComp_nextTerm]
    by_cases hj : j = i
    · subst hj
      rw [emitComp_nextTerm_self, if_pos rfl]
    · rw [emitComp_nextTerm_ne _ _ _ hj, if_neg hj]
  have h2rc : ∀ j, (stepComp seq s i t).refcnt j =
      if j ∈ termDeps seq t then s.refcnt j - 1 else s.refcnt j := by
    intro j
    unfold stepComp
    rw [release_refcnt seq _ _ hnd j]
    rfl
  have h2fr : ∀ j, (stepComp seq s i t).freed j =
      (s.freed j || (decide (j ∈ termDeps seq t) && decide (s.refcnt j - 1 = 0) &&
        intermAt seq j)) := by
    intro j
    unfold stepComp
    rw [release_freed seq _ _ hnd j]
    rfl
  have h1D := count_CT_emitComp s i hinv.hD
  have h1E := count_BC_emitComp s i hinv.hE
  have h2D : ∀ i' t', ((stepComp seq s i t).events).count (Event.CompTerm i' t') =
      if t' < (stepComp seq s i t).nextTerm i' then 1 else 0 := by
    intro i' t'
    have hc : ((stepComp seq s i t).events).count (Event.CompTerm i' t') =
        ((emitComp s i).events).count (Event.CompTerm i' t') := by
      unfold stepComp
      exact release_count_notOOU seq _ _ _ (fun j h => by cases h)
    rw [hc, h1D i' t', show (stepComp seq s i t).nextTerm = (emitComp s i).nextTerm from
      stepComp_nextTerm seq s i t]
  have h2E : ∀ i', ((stepComp seq s i t).events).count (Event.BeforeComp i') =
      if 0 < (stepComp seq s i t).nextTerm i' then 1 else 0 := by
    intro i'
    have hc : ((stepComp seq s i t).events).count (Event.BeforeComp i') =
        ((emitComp s i).events).count (Event.BeforeComp i') := by
      unfold stepComp
      exact release_count_notOOU seq _ _ _ (fun j h => by cases h)
    rw [hc, h1E i', show (stepComp seq s i t).nextTerm = (emitComp s i).nextTerm from
      stepComp_nextTerm seq s i t]
  have h2OOU : ∀ m, ((stepComp seq s i t).events).count (Event.OutOfUse m) =
      (s.events).count (Event.OutOfUse m) +
      (if m ∈ termDeps seq t ∧ s.refcnt m - 1 = 0 ∧ intermAt seq m = true ∧
        s.freed m = false then 1 else 0) := by
    intro m
    have hc : ((stepComp seq s i t).events).count (Event.OutOfUse m) =
        ((emitComp s i).events).count (Event.OutOfUse m) +
        (if m ∈ termDeps seq t ∧ (emitComp s i).refcnt m - 1 = 0 ∧
          intermAt seq m = true ∧ (emitComp s i).freed m = false then 1 else 0) := by
      unfold stepComp
      exact release_count seq _ _ hnd m
    rw [hc, count_OOU_emitComp]
    rfl
  have hpend : ∀ j, pendingRefs seq s.nextTerm j =
      (if refTermB seq i (s.nextTerm i) j = true then 1 else 0) +
      pendingRefs seq (stepComp seq s i t).nextTerm j := by
    intro j
    rw [show (stepComp seq s i t).nextTerm = (emitComp s i).nextTerm from
      stepComp_nextTerm seq s i t]
    exact pendingRefs_emitComp seq s i hi hk j
  have hrefmem : ∀ j, refTermB seq i (s.nextTerm i) j = true ↔ j ∈ termDeps seq t :=
    refTermB_iff_mem seq i (s.nextTerm i) t hterm
  have hB2 : ∀ j, (stepComp seq s i t).refcnt j =
      pendingRefs seq (stepComp seq s i t).nextTerm j := by
    intro j
    rw [h2rc j]
    have hp := hpend j
    have hb := hinv.hB j
    by_cases hj : j ∈ termDeps seq t
    · rw [if_pos hj]
      rw [if_pos ((hrefmem j).mpr hj)] at hp
      omega
    · rw [if_neg hj]
      rw [if_neg (fun h => hj ((hrefmem j).mp h))] at hp
      omega
  have hA2 : ∀ j, (stepComp seq s i t).nextTerm j ≤ numTerms seq j := by
    intro j
    rw [h2nt j]
    by_cases hj : j = i
    · subst hj
      rw [if_pos rfl]
      omega
    · rw [if_neg hj]
      exact hinv.hA j
  have hH2 : ∀ i' t', t' < (stepComp seq s i t).nextTerm i' →
      ∀ j ∈ termDepsAt seq i' t', numTerms seq j ≤ (stepComp seq s i t).nextTerm j := by
    intro i' t' ht' j hj
    have hmono : ∀ x, s.nextTerm x ≤ (stepComp seq s i t).nextTerm x :=
      fun x => stepComp_nextTerm_le seq s i t x
    rw [h2nt i'] at ht'
    by_cases hii : i' = i
    · rw [if_pos hii] at ht'
      by_cases htk : t' = s.nextTerm i
      · have hdeq : termDepsAt seq i' t' = termDeps seq t := by
          unfold termDepsAt
          rw [hii, htk, hterm]
          rfl
        rw [hdeq] at hj
        exact le_trans (hdl' j hj) (hmono j)
      · have htlt : t' < s.nextTerm i' := by
          rw [hii]
          omega
        exact le_trans (hinv.hH i' t' htlt j hj) (hmono j)
    · rw [if_neg hii] at ht'
      exact le_trans (hinv.hH i' t' ht' j hj) (hmono j)
  have hC2ne : ∀ j, j ≠ i → ((stepComp seq s i t).freed j = true ↔
      (intermAt seq j = true ∧ numTerms seq j ≤ (stepComp seq s i t).nextTerm j ∧
        (stepComp seq s i t).refcnt j = 0)) := by
    intro j hj
    rw [h2fr j, h2rc j, h2nt j, if_neg hj]
    by_cases hjl : j ∈ termDeps seq t
    · rw [if_pos hjl]
      have hdj : numTerms seq j ≤ s.nextTerm j := hdl' j hjl
      have hCj := hinv.hC j
      simp only [Bool.or_eq_true, Bool.and_eq_true, decide_eq_true_eq]
      constructor
      · rintro (hold | ⟨⟨_, hr0⟩, hint⟩)
        · obtain ⟨hint, _, hrc⟩ := hCj.mp hold
          exact ⟨hint, hdj, by omega⟩
        · exact ⟨hint, hdj, hr0⟩
      · rintro ⟨hint, _, hrc⟩
        right
        exact ⟨⟨hjl, hrc⟩, hint⟩
    · rw [if_neg hjl]
      have hCj := hinv.hC j
      simp only [Bool.or_eq_true, Bool.and_eq_true, decide_eq_true_eq]
      constructor
      · rintro (hold | ⟨⟨habs, _⟩, _⟩)
        · exact hCj.mp hold
        · exact absurd habs hjl
      · intro hrhs
        left
        exact hCj.mpr hrhs
  have hfreedi : s.freed i = false := by
    cases hfi : s.freed i
    · rfl
    · exfalso
      obtain ⟨_, hdone, _⟩ := (hinv.hC i).mp hfi
      omega
  have h2fri : (stepComp seq s i t).freed i = s.freed i := by
    rw [h2fr i]
    simp [hil]
  have hF2 : ∀ j, ((stepComp seq s i t).events).count (Event.OutOfUse j) =
      if (stepComp seq s i t).freed j = true then 1 else 0 := by
    intro j
    rw [h2OOU j, hinv.hF j, h2fr j]
    by_cases hmem : j ∈ termDeps seq t <;>
      by_cases hr0 : s.refcnt j - 1 = 0 <;>
        cases hint : intermAt seq j <;>
          cases hf : s.freed j <;>
            simp [hmem, hr0, hint, hf]
  have hG2 : GInv seq (stepComp seq s i t) := by
    unfold stepComp
    refine GInv_release seq (termDeps seq t) (emitComp s i) hnd ?_ ?_
    · intro j hj hr0 hint hf0
      have hrs : s.refcnt j - 1 = 0 := hr0
      have hfs : s.freed j = false := hf0
      have hji : j ≠ i := fun h => hil (h ▸ hj)
      have hpzero : pendingRefs seq (emitComp s i).nextTerm j = 0 := by
        have hp := hpend j
        rw [if_pos ((hrefmem j).mpr hj)] at hp
        have hb := hinv.hB j
        rw [show (stepComp seq s i t).nextTerm = (emitComp s i).nextTerm from
          stepComp_nextTerm seq s i t] at hp
        omega
      have hlt := pendingRefs_zero seq (emitComp s i).nextTerm j hpzero
      refine ⟨?_, ?_⟩
      · intro i' t' href
        have ht' := hlt i' t' href
        constructor
        · exact mem_of_count_one (by rw [h1D i' t', if_pos ht'])
        · exact mem_of_count_one (by rw [h1E i', if_pos (by omega)])
      · intro hpos
        have hdj : numTerms seq j ≤ s.nextTerm j := hdl' j hj
        have hnt : (emitComp s i).nextTerm j = s.nextTerm j :=
          emitComp_nextTerm_ne s i j hji
        exact mem_of_count_one (by rw [h1D j (numTerms seq j - 1), if_pos (by omega)])
    · intro j hfj
      have hfj' : s.freed j = true := hfj
      have hGold := hinv.hG j hfj'
      rw [emitComp_events]
      refine ⟨fun i' t' href => ⟨?_, ?_⟩, fun hpos => ?_⟩
      · exact sublist_grow (sublist_grow (hGold.1 i' t' href).1 _) _
      · exact sublist_grow (sublist_grow (hGold.1 i' t' href).2 _) _
      · exact sublist_grow (sublist_grow (hGold.2 hpos) _) _
  by_cases hdone : isDoneAt seq (stepComp seq s i t) i = true
  · rw [if_pos hdone]
    have hdone' : numTerms seq i ≤ (stepComp seq s i t).nextTerm i := by
      unfold isDoneAt at hdone
      simpa using hdone
    have hselfcnt : ∀ e : Event, (∀ m, e ≠ Event.OutOfUse m) →
        ((selfFree seq (stepComp seq s i t) i).events).count e =
          ((stepComp seq s i t).events).count e := by
      intro e he
      rw [selfFree_events, List.count_append]
      have h0 : (if (stepComp seq s i t).refcnt i = 0 ∧ intermAt seq i = true ∧
          (stepComp seq s i t).freed i = false then [Event.OutOfUse i] else []).count e
          = 0 := by
        split
        · rw [List.count_eq_zero]
          intro hmem
          exact he i (List.mem_singleton.mp hmem)
        · simp
      omega
    refine ⟨?hA, ?hB, ?hC, ?hD, ?hE, ?hF, ?hH, ?hG⟩
    case hA =>
      intro j
      rw [selfFree_nextTerm]
      exact hA2 j
    case hB =>
      intro j
      rw [selfFree_nextTerm, selfFree_refcnt]
      exact hB2 j
    case hC =>
      intro j
      rw [selfFree_freed, selfFree_nextTerm, selfFree_refcnt]
      by_cases hj : j = i
      · subst hj
        rw [if_pos rfl, h2fri, hfreedi]
        simp only [Bool.false_or, Bool.and_eq_true, decide_eq_true_eq]
        constructor
        · rintro ⟨hrc, hint⟩
          exact ⟨hint, hdone', hrc⟩
        · rintro ⟨hint, _, hrc⟩
          exact ⟨hrc, hint⟩
      · rw [if_neg hj]
        exact hC2ne j hj
    case hD =>
      intro i' t'
      rw [selfFree_nextTerm, hselfcnt _ (fun m h => by cases h)]
      exact h2D i' t'
    case hE =>
      intro i'
      rw [selfFree_nextTerm, hselfcnt _ (fun m h => by cases h)]
      exact h2E i'
    case hF =>
      intro j
      rw [selfFree_events, List.count_append, selfFree_freed]
      by_cases hj : j = i
      · subst hj
        rw [if_pos rfl]
        by_cases hfire : (stepComp seq s j t).refcnt j = 0 ∧ intermAt seq j = true ∧
            (stepComp seq s j t).freed j = false
        · rw [if_pos hfire]
          simp [hF2 j, hfire.1, hfire.2.1, hfire.2.2]
        · rw [if_neg hfire]
          simp only [List.count_nil, add_zero]
          rw [hF2 j]
          cases hf2 : (stepComp seq s j t).freed j
          · have hX : ¬((stepComp seq s j t).refcnt j = 0 ∧ intermAt seq j = true) :=
              fun h => hfire ⟨h.1, h.2, hf2⟩
            by_cases hrc : (stepComp seq s j t).refcnt j = 0
            · cases hint : intermAt seq j
              · simp [hrc, hint]
              · exact absurd ⟨hrc, hint⟩ hX
            · simp [hrc]
          · simp
      · rw [if_neg hj]
        have h0 : (if (stepComp seq s i t).refcnt i = 0 ∧ intermAt seq i = true ∧
            (stepComp seq s i t).freed i = false then [Event.OutOfUse i] else []).count
            (Event.OutOfUse j) = 0 := by
          split
          · rw [List.count_eq_zero]
            intro hmem
            have := List.mem_singleton.mp hmem
            rw [Event.OutOfUse.injEq] at this
            exact hj this
          · simp
        rw [h0, add_zero]
        exact hF2 j
    case hH =>
      intro i' t' ht' j hj
      rw [selfFree_nextTerm] at ht' ⊢
      exact hH2 i' t' ht' j hj
    case hG =>
      intro j hfj
      rw [selfFree_events]
      rw [selfFree_freed] at hfj
      by_cases hj : j = i
      · subst hj
        rw [if_pos rfl, h2fri, hfreedi] at hfj
        simp only [Bool.false_or, Bool.and_eq_true, decide_eq_true_eq] at hfj
        obtain ⟨hrc0, hint⟩ := hfj
        have hpzero : pendingRefs seq (stepComp seq s j t).nextTerm j = 0 := by
          rw [← hB2 j]
          exact hrc0
        have hlt := pendingRefs_zero seq (stepComp seq s j t).nextTerm j hpzero
        have hfire : (stepComp seq s j t).refcnt j = 0 ∧ intermAt seq j = true ∧
            (stepComp seq s j t).freed j = false := ⟨hrc0, hint, by rw [h2fri]; exact hfreedi⟩
        rw [if_pos hfire]
        refine ⟨fun i' t' href => ⟨?_, ?_⟩, fun hpos => ?_⟩
        · exact pair_sublist_append
            (mem_of_count_one (by rw [h2D i' t', if_pos (hlt i' t' href)]))
            (List.mem_singleton.mpr rfl)
        · exact pair_sublist_append
            (mem_of_count_one (by rw [h2E i', if_pos (by have := hlt i' t' href; omega)]))
            (List.mem_singleton.mpr rfl)
        · have hnt2 : numTerms seq j ≤ (stepComp seq s j t).nextTerm j := hdone'
          exact pair_sublist_append
            (mem_of_count_one (by rw [h2D j (numTerms seq j - 1), if_pos (by omega)]))
            (List.mem_singleton.mpr rfl)
      · rw [if_neg hj] at hfj
        have hGold := hG2 j hfj
        refine ⟨fun i' t' href => ⟨sublist_grow (hGold.1 i' t' href).1 _,
          sublist_grow (hGold.1 i' t' href).2 _⟩,
          fun hpos => sublist_grow (hGold.2 hpos) _⟩
  · rw [if_neg hdone]
    have hdone' : ¬ (numTerms seq i ≤ (stepComp seq s i t).nextTerm i) := by
      unfold isDoneAt at hdone
      simpa using hdone
    refine ⟨hA2, hB2, ?_, h2D, h2E, hF2, hH2, hG2⟩
    intro j
    by_cases hj : j = i
    · subst hj
      rw [h2fri, hfreedi]
      constructor
      · intro h
        cases h
      · rintro ⟨_, hd, _⟩
        exact absurd hd hdone'
    · exact hC2ne j hj

theorem loopF_inv (seq : List Comput) (f : Nat) :
    ∀ s stack, Inv seq s → Inv seq (loopF seq f s stack) := by
  induction f with
  | zero =>
    intro s stack hinv
    rw [loopF_zero]
    exact hinv
  | succ f ih =>
    intro s stack hinv
    match stack with
    | [] =>
      rw [loopF_nil]
      exact hinv
    | i :: rest =>
      cases hcur : curTerm seq s i with
      | none =>
        rw [loopF_cons_none _ _ _ _ _ hcur]
        exact ih _ _ hinv
      | some t =>
        by_cases he : termEnabledB seq s t = true
        · have hstep := inv_step seq s i t hinv hcur he
          by_cases hd : isDoneAt seq (stepComp seq s i t) i = true
          · rw [loopF_cons_step_done _ _ _ _ _ _ hcur he hd]
            rw [if_pos hd] at hstep
            exact ih _ _ hstep
          · rw [loopF_cons_step_cont _ _ _ _ _ _ hcur he (by simpa using hd)]
            rw [if_neg hd] at hstep
            exact ih _ _ hstep
        · rw [loopF_cons_blocked _ _ _ _ _ _ hcur (by simpa using he)]
          exact ih _ _ hinv

/-! ## Facts about the final state and the full event stream -/

theorem form_events_eq (seq : List Comput) :
    form_events seq = (finalSt seq).events ++ [Event.EndBody] := rfl

theorem finalSt_inv (seq : List Comput) (hne : nonEmptyTermsB seq = true) :
    Inv seq (finalSt seq) :=
  loopF_inv seq _ _ _ (inv_init seq hne)

theorem finalSt_done (seq : List Comput) (ht : topoB seq = true) :
    ∀ j, j < seq.length → numTerms seq j ≤ (finalSt seq).nextTerm j := by
  intro j hj
  have h := final_all_done seq ht j hj
  unfold isDoneAt at h
  simpa using h

theorem finalSt_freed (seq : List Comput) (ht : topoB seq = true)
    (hne : nonEmptyTermsB seq = true) :
    ∀ j, (finalSt seq).freed j = intermAt seq j := by
  intro j
  have hinv := finalSt_inv seq hne
  by_cases hj : j < seq.length
  · have hdone := finalSt_done seq ht j hj
    have hrc : (finalSt seq).refcnt j = 0 := by
      rw [hinv.hB j]
      exact pendingRefs_done seq _ (finalSt_done seq ht) j
    cases hint : intermAt seq j
    · cases hfr : (finalSt seq).freed j
      · rfl
      · obtain ⟨hint', _, _⟩ := (hinv.hC j).mp hfr
        rw [hint] at hint'
        cases hint'
    · exact (hinv.hC j).mpr ⟨hint, hdone, hrc⟩
  · cases hfr : (finalSt seq).freed j
    · cases hint : intermAt seq j
      · rfl
      · exact absurd (intermAt_lt seq j hint) hj
    · obtain ⟨hint', _, _⟩ := (hinv.hC j).mp hfr
      exact absurd (intermAt_lt seq j hint') hj

theorem count_form_events (seq : List Comput) (e : Event) (he : e ≠ Event.EndBody) :
    (form_events seq).count e = ((finalSt seq).events).count e := by
  rw [form_events_eq, List.count_append]
  have h0 : (List.count e [Event.EndBody]) = 0 := by
    rw [List.count_eq_zero]
    intro h
    exact he (List.mem_singleton.mp h)
  omega

theorem form_events_decomp (seq : List Comput) :
    ∃ d, form_events seq = declEvents seq ++ Event.BeginBody :: (d ++ [Event.EndBody]) ∧
      ∀ e ∈ d, bodyKindB e = true := by
  obtain ⟨d, hd, hall⟩ :=
    loopF_events seq (schedFuel seq) (initSt seq) (List.range seq.length)
  refine ⟨d, ?_, hall⟩
  rw [form_events_eq]
  have h1 : (finalSt seq).events = (declEvents seq ++ [Event.BeginBody]) ++ d := hd
  rw [h1]
  simp

theorem OOU_mem_interm (seq : List Comput) (ht : topoB seq = true)
    (hne : nonEmptyTermsB seq = true) (j : Nat)
    (h : Event.OutOfUse j ∈ form_events seq) : intermAt seq j = true := by
  have hcnt : 0 < (form_events seq).count (Event.OutOfUse j) := List.count_pos_iff.mpr h
  rw [count_form_events seq _ (by intro h2; cases h2)] at hcnt
  have hF := (finalSt_inv seq hne).hF j
  rw [finalSt_freed seq ht hne j] at hF
  cases hint : intermAt seq j
  · rw [hint] at hF
    simp at hF
    omega
  · rfl

theorem sum_map_indicator (L : List Nat) (a : Nat) :
    ((L.map (fun j => if j = a then 1 else 0)).sum) = L.count a := by
  induction L with
  | nil => simp
  | cons x L ih =>
    rw [List.map_cons, List.sum_cons, ih, List.count_cons]
    by_cases hx : x = a
    · simp [hx]
      omega
    · have : (x == a) = false := by
        simp [hx]
      simp [hx, this]

theorem countP_OOU_eq_sum (n : Nat) (l : List Event)
    (hbound : ∀ j, Event.OutOfUse j ∈ l → j < n) :
    l.countP (fun e => match e with | Event.OutOfUse _ => true | _ => false) =
      ((List.range n).map (fun j => l.count (Event.OutOfUse j))).sum := by
  induction l with
  | nil => simp
  | cons e l ih =>
    have hb' : ∀ j, Event.OutOfUse j ∈ l → j < n :=
      fun j hj => hbound j (List.mem_cons_of_mem _ hj)
    rw [List.countP_cons, ih hb']
    have hsplit : ∀ j : Nat, (e :: l).count (Event.OutOfUse j) =
        l.count (Event.OutOfUse j) +
          (if (Event.OutOfUse j) = e then 1 else 0) := by
      intro j
      rw [List.count_cons]
      by_cases hj : Event.OutOfUse j = e
      · simp [hj]
      · have h1 : ¬(e = Event.OutOfUse j) := fun h => hj h.symm
        simp [hj, h1]
    have hmapsplit : ((List.range n).map (fun j => (e :: l).count (Event.OutOfUse j))).sum =
        ((List.range n).map (fun j => l.count (Event.OutOfUse j))).sum +
        ((List.range n).map (fun j => if (Event.OutOfUse j) = e then 1 else 0)).sum := by
      rw [← List.sum_map_add]
      refine congrArg _ ?_
      refine List.map_congr_left ?_
      intro j _
      exact hsplit j
    rw [hmapsplit]
    cases e with
    | OutOfUse j0 =>
      have hj0 : j0 < n := hbound j0 (List.mem_cons_self _ _)
      have hind : ((List.range n).map
          (fun j => if (Event.OutOfUse j) = Event.OutOfUse j0 then 1 else 0)).sum = 1 := by
        have hcong : (List.range n).map
            (fun j => if (Event.OutOfUse j) = Event.OutOfUse j0 then 1 else 0) =
            (List.range n).map (fun j => if j = j0 then 1 else 0) := by
          refine List.map_congr_left ?_
          intro j _
          by_cases hj : j = j0 <;> simp [hj]
        rw [hcong, sum_map_indicator]
        have : (List.range n).count j0 = 1 := by
          have hmem : j0 ∈ List.range n := List.mem_range.mpr hj0
          have hnd : (List.range n).Nodup := List.nodup_range n
          exact List.count_eq_one_of_mem hnd hmem
        exact this
      rw [hind]
      simp
    | TensorDecl i0 =>
      have : ((List.range n).map
          (fun j => if (Event.OutOfUse j) = Event.TensorDecl i0 then 1 else 0)).sum = 0 := by
        have hcong : (List.range n).map
            (fun j => if (Event.OutOfUse j) = Event.TensorDecl i0 then 1 else 0) =
            (List.range n).map (fun _ => 0) := by
          refine List.map_congr_left ?_
          intro j _
          simp
        rw [hcong]
        simp
      rw [this]
      simp
    | BeginBody =>
      have : ((List.range n).map
          (fun j => if (Event.OutOfUse j) = Event.BeginBody then 1 else 0)).sum = 0 := by
        have hcong : (List.range n).map
            (fun j => if (Event.OutOfUse j) = Event.BeginBody then 1 else 0) =
            (List.range n).map (fun _ => 0) := by
          refine List.map_congr_left ?_
          intro j _
          simp
        rw [hcong]
        simp
      rw [this]
      simp
    | BeforeComp i0 =>
      have : ((List.range n).map
          (fun j => if (Event.OutOfUse j) = Event.BeforeComp i0 then 1 else 0)).sum = 0 := by
        have hcong : (List.range n).map
            (fun j => if (Event.OutOfUse j) = Event.BeforeComp i0 then 1 else 0) =
            (List.range n).map (fun _ => 0) := by
          refine List.map_congr_left ?_
          intro j _
          simp
        rw [hcong]
        simp
      rw [this]
      simp
    | CompTerm i0 t0 =>
      have : ((List.range n).map
          (fun j => if (Event.OutOfUse j) = Event.CompTerm i0 t0 then 1 else 0)).sum = 0 := by
        have hcong : (List.range n).map
            (fun j => if (Event.OutOfUse j) = Event.CompTerm i0 t0 then 1 else 0) =
            (List.range n).map (fun _ => 0) := by
          refine List.map_congr_left ?_
          intro j _
          simp
        rw [hcong]
        simp
      rw [this]
      simp
    | EndBody =>
      have : ((List.range n).map
          (fun j => if (Event.OutOfUse j) = Event.EndBody then 1 else 0)).sum = 0 := by
        have hcong : (List.range n).map
            (fun j => if (Event.OutOfUse j) = Event.EndBody then 1 else 0) =
            (List.range n).map (fun _ => 0) := by
          refine List.map_congr_left ?_
          intro j _
          simp
        rw [hcong]
        simp
      rw [this]
      simp

theorem filter_range_interm (seq : List Comput) :
    ((List.range seq.length).filter (intermAt seq)).length =
      seq.countP (fun c => c.if_interm) := by
  induction seq with
  | nil => simp
  | cons c cs ih =>
    rw [List.length_cons, List.range_succ_eq_map, List.filter_cons]
    have h0 : intermAt (c :: cs) 0 = c.if_interm := by
      simp [intermAt]
    have hmap : (List.map Nat.succ (List.range cs.length)).filter (intermAt (c :: cs)) =
        List.map Nat.succ ((List.range cs.length).filter (intermAt (c :: cs) ∘ Nat.succ)) :=
      List.filter_map _ _
    have hcomp : (List.range cs.length).filter (intermAt (c :: cs) ∘ Nat.succ) =
        (List.range cs.length).filter (intermAt cs) := by
      refine List.filter_congr ?_
      intro i _
      show intermAt (c :: cs) (i + 1) = intermAt cs i
      unfold intermAt
      rw [List.getElem?_cons_succ]
    rw [List.countP_cons, h0, hmap, hcomp]
    cases hc : c.if_interm <;> simp [hc, ih]

theorem sum_map_ite_filter (L : List Nat) (p : Nat → Bool) :
    ((L.map (fun j => if p j = true then 1 else 0)).sum) = (L.filter p).length := by
  induction L with
  | nil => simp
  | cons x L ih =>
    rw [List.map_cons, List.sum_cons, ih, List.filter_cons]
    cases h : p x
    · simp [h]
    · simp [h]
      omega

theorem bodyKindB_ne (e : Event) (h : bodyKindB e = true) :
    (∀ i, e ≠ Event.TensorDecl i) ∧ e ≠ Event.BeginBody ∧ e ≠ Event.EndBody := by
  cases e <;> simp_all [bodyKindB]

theorem declEvents_nodup (seq : List Comput) : (declEvents seq).Nodup := by
  unfold declEvents
  refine List.Nodup.map ?_ (List.Nodup.filter _ (List.nodup_range _))
  intro a b hab
  injection hab

theorem mem_declEvents (seq : List Comput) (i : Nat) :
    Event.TensorDecl i ∈ declEvents seq ↔ intermAt seq i = true := by
  unfold declEvents
  rw [List.mem_map]
  constructor
  · rintro ⟨j, hj, hje⟩
    injection hje with h
    subst h
    exact (List.mem_filter.mp hj).2
  · intro h
    exact ⟨i, List.mem_filter.mpr ⟨List.mem_range.mpr (intermAt_lt seq i h), h⟩, rfl⟩

theorem declEvents_all_decl (seq : List Comput) :
    ∀ e ∈ declEvents seq, ∃ i, e = Event.TensorDecl i := by
  intro e he
  obtain ⟨j, _, hje⟩ := List.mem_map.mp he
  exact ⟨j, hje.symm⟩

theorem count_decl_form_events (seq : List Comput) (i : Nat) :
    (form_events seq).count (Event.TensorDecl i) =
      if intermAt seq i = true then 1 else 0 := by
  obtain ⟨d, hdec, hall⟩ := form_events_decomp seq
  have hd0 : d.count (Event.TensorDecl i) = 0 := by
    rw [List.count_eq_zero]
    intro hmem
    exact ((bodyKindB_ne _ (hall _ hmem)).1 i) rfl
  have hend : (List.count (Event.TensorDecl i) [Event.EndBody]) = 0 := by
    simp [List.count_singleton]
  have hbg : (List.count (Event.TensorDecl i) [Event.BeginBody]) = 0 := by
    simp [List.count_singleton]
  have hdecl : (declEvents seq).count (Event.TensorDecl i) =
      if intermAt seq i = true then 1 else 0 := by
    by_cases hint : intermAt seq i = true
    · rw [if_pos hint]
      exact List.count_eq_one_of_mem (declEvents_nodup seq)
        ((mem_declEvents seq i).mpr hint)
    · rw [if_neg hint, List.count_eq_zero]
      intro hmem
      exact hint ((mem_declEvents seq i).mp hmem)
  have hsplit : form_events seq =
      declEvents seq ++ ([Event.BeginBody] ++ (d ++ [Event.EndBody])) := by
    rw [hdec]
    rfl
  rw [hsplit, List.count_append, List.count_append, List.count_append,
    hd0, hbg, hend, hdecl]
  omega

/-! ## The claims -/

/-- Claim C1: for the evaluation sequence I1 = X·Y, I2 = Y·X, I3 = trace(I1),
R1 = I1·I3 + I2, R2 = I1·2, with I1, I2, I3 flagged intermediate (positions
0, 1, 2) and R1, R2 (positions 3, 4) as results, form_events produces exactly
the event stream Declare(I1), Declare(I2), Declare(I3), BeginBody,
BeforeCompute(I1), ComputeTerm(I1,0), BeforeCompute(I3), ComputeTerm(I3,0),
BeforeCompute(R1), ComputeTerm(R1,0), OutOfUse(I3), BeforeCompute(R2),
ComputeTerm(R2,0), OutOfUse(I1), BeforeCompute(I2), ComputeTerm(I2,0),
ComputeTerm(R1,1), OutOfUse(I2), EndBody, in this exact order with no other
events. -/
theorem c1_driving_trace :
    form_events exampleSeq =
      [Event.TensorDecl 0, Event.TensorDecl 1, Event.TensorDecl 2, Event.BeginBody,
       Event.BeforeComp 0, Event.CompTerm 0 0,
       Event.BeforeComp 2, Event.CompTerm 2 0,
       Event.BeforeComp 3, Event.CompTerm 3 0,
       Event.OutOfUse 2,
       Event.BeforeComp 4, Event.CompTerm 4 0,
       Event.OutOfUse 0,
       Event.BeforeComp 1, Event.CompTerm 1 0,
       Event.CompTerm 3 1,
       Event.OutOfUse 1,
       Event.EndBody] ∧
    baseAt exampleSeq 0 = "I1" ∧ baseAt exampleSeq 1 = "I2" ∧
    baseAt exampleSeq 2 = "I3" ∧ baseAt exampleSeq 3 = "R1" ∧
    baseAt exampleSeq 4 = "R2" ∧
    intermAt exampleSeq 0 = true ∧ intermAt exampleSeq 1 = true ∧
    intermAt exampleSeq 2 = true ∧ intermAt exampleSeq 3 = false ∧
    intermAt exampleSeq 4 = false := by
  decide

/-- Claim C2, counterexample: computation 3 (R1, a result) is part of the
evaluation sequence, yet the event stream contains no Declare event for it —
refuting the claim that every Computation, results as well as intermediates,
receives a TensorDecl event. -/
theorem c2_counterexample :
    3 < exampleSeq.length ∧ intermAt exampleSeq 3 = false ∧
    Event.TensorDecl 3 ∉ form_events exampleSeq := by
  decide

/-- Claim C2 (amended): the event stream contains exactly one Declare
(TensorDecl) event for every Computation flagged intermediate — results are
not declared in the stream —, these Declare events appear in the sequence's
order, and all of them precede the BeginBody event. -/
theorem c2_declarations (seq : List Comput) :
    (∃ body, form_events seq =
      ((List.range seq.length).filter (intermAt seq)).map Event.TensorDecl ++
        Event.BeginBody :: body ∧
      ∀ e ∈ body, bodyKindB e = true ∨ e = Event.EndBody) ∧
    (∀ i, intermAt seq i = true →
      (form_events seq).count (Event.TensorDecl i) = 1) ∧
    (∀ i, intermAt seq i = false → Event.TensorDecl i ∉ form_events seq) := by
  refine ⟨?_, ?_, ?_⟩
  · obtain ⟨d, hdec, hall⟩ := form_events_decomp seq
    refine ⟨d ++ [Event.EndBody], hdec, ?_⟩
    intro e he
    rcases List.mem_append.mp he with h | h
    · exact Or.inl (hall e h)
    · exact Or.inr (List.mem_singleton.mp h)
  · intro i hint
    rw [count_decl_form_events, if_pos hint]
  · intro i hint
    have h := count_decl_form_events seq i
    rw [hint] at h
    simp only [Bool.false_eq_true, if_false] at h
    exact List.count_eq_zero.mp h

/-- Claim C3, counterexample: I3 (position 2) is an intermediate referenced by
R1 (position 3), and OutOfUse(I3) precedes ComputeTerm(R1,1), the last
ComputeTerm event of R1 — refuting the claim that no OutOfUse event for a
computation T precedes the last ComputeTerm event of a computation whose
terms reference T. -/
theorem c3_counterexample :
    intermAt exampleSeq 2 = true ∧
    refTermB exampleSeq 3 0 2 = true ∧
    numTerms exampleSeq 3 = 2 ∧
    List.Sublist [Event.OutOfUse 2, Event.CompTerm 3 1] (form_events exampleSeq) ∧
    (form_events exampleSeq).count (Event.OutOfUse 2) = 1 ∧
    (form_events exampleSeq).count (Event.CompTerm 3 1) = 1 := by
  decide

/-- Claim C3 (amended): for every topologically ordered evaluation sequence
whose computations all have at least one term, the number of OutOfUse events
equals the number of computations flagged intermediate, each intermediate
receives exactly one OutOfUse event, no OutOfUse event for a computation T
precedes T's own last ComputeTerm event nor any ComputeTerm event whose term
references T, and no BeforeCompute of a computation referencing T nor
ComputeTerm whose term references T occurs after OutOfUse(T) — the referencing
events occur exactly once and before it. -/
theorem c3_out_of_use (seq : List Comput) (ht : topoB seq = true)
    (hne : nonEmptyTermsB seq = true) :
    ((form_events seq).countP (fun e => match e with
        | Event.OutOfUse _ => true
        | _ => false)) = seq.countP (fun c => c.if_interm) ∧
    (∀ j, j < seq.length → intermAt seq j = true →
      (form_events seq).count (Event.OutOfUse j) = 1 ∧
      (form_events seq).count (Event.CompTerm j (numTerms seq j - 1)) = 1 ∧
      List.Sublist [Event.CompTerm j (numTerms seq j - 1), Event.OutOfUse j]
        (form_events seq) ∧
      (∀ i t, refTermB seq i t j = true →
        (form_events seq).count (Event.CompTerm i t) = 1 ∧
        (form_events seq).count (Event.BeforeComp i) = 1 ∧
        List.Sublist [Event.CompTerm i t, Event.OutOfUse j] (form_events seq) ∧
        List.Sublist [Event.BeforeComp i, Event.OutOfUse j] (form_events seq))) ∧
    (∀ j, intermAt seq j = false → Event.OutOfUse j ∉ form_events seq) := by
  have hinv := finalSt_inv seq hne
  have hfr := finalSt_freed seq ht hne
  have hcount : ∀ j, (form_events seq).count (Event.OutOfUse j) =
      if intermAt seq j = true then 1 else 0 := by
    intro j
    rw [count_form_events seq _ (by intro h; cases h), hinv.hF j, hfr j]
  refine ⟨?_, ?_, ?_⟩
  · have hbound : ∀ j, Event.OutOfUse j ∈ form_events seq → j < seq.length :=
      fun j hj => intermAt_lt seq j (OOU_mem_interm seq ht hne j hj)
    rw [countP_OOU_eq_sum seq.length _ hbound]
    have hmape : (List.range seq.length).map
        (fun j => (form_events seq).count (Event.OutOfUse j)) =
        (List.range seq.length).map (fun j => if intermAt seq j = true then 1 else 0) :=
      List.map_congr_left (fun j _ => hcount j)
    rw [hmape, sum_map_ite_filter, filter_range_interm]
  · intro j hj hint
    have hfrj : (finalSt seq).freed j = true := by
      rw [hfr j]
      exact hint
    have hG := hinv.hG j hfrj
    have hposj : 1 ≤ numTerms seq j := numTerms_pos seq hne j hj
    have hdonej := finalSt_done seq ht j hj
    refine ⟨by rw [hcount j, if_pos hint], ?_, ?_, ?_⟩
    · rw [count_form_events seq _ (by intro h; cases h), hinv.hD j (numTerms seq j - 1),
        if_pos (by omega)]
    · rw [form_events_eq]
      exact sublist_grow (hG.2 hposj) _
    · intro i t href
      obtain ⟨hi, htlt⟩ := refTermB_lt seq i t j href
      have hdone := finalSt_done seq ht i hi
      have hposi : 1 ≤ numTerms seq i := numTerms_pos seq hne i hi
      refine ⟨?_, ?_, ?_, ?_⟩
      · rw [count_form_events seq _ (by intro h; cases h), hinv.hD i t,
          if_pos (by omega)]
      · rw [count_form_events seq _ (by intro h; cases h), hinv.hE i,
          if_pos (by omega)]
      · rw [form_events_eq]
        exact sublist_grow (hG.1 i t href).1 _
      · rw [form_events_eq]
        exact sublist_grow (hG.1 i t href).2 _
  · intro j hint
    have h := hcount j
    rw [hint] at h
    simp only [Bool.false_eq_true, if_false] at h
    exact List.count_eq_zero.mp h

/-- Claim C3, witness: the theorem applied to the concrete test sequence. -/
theorem c3_out_of_use_witness :
    topoB exampleSeq = true ∧ nonEmptyTermsB exampleSeq = true ∧
    ((form_events exampleSeq).countP (fun e => match e with
        | Event.OutOfUse _ => true
        | _ => false)) = exampleSeq.countP (fun c => c.if_interm) :=
  ⟨by decide, by decide, (c3_out_of_use exampleSeq (by decide) (by decide)).1⟩

/-- Claim C4: for every topologically ordered evaluation sequence whose
computations all have at least one term, a computation not flagged
intermediate is treated as a final result: it is scheduled and computed like
any other computation — its BeforeCompute event and one ComputeTerm event per
term appear in the stream — but it never receives an OutOfUse event. -/
theorem c4_results_not_freed (seq : List Comput) (ht : topoB seq = true)
    (hne : nonEmptyTermsB seq = true) :
    ∀ i, i < seq.length → intermAt seq i = false →
      Event.BeforeComp i ∈ form_events seq ∧
      (∀ t, t < numTerms seq i → Event.CompTerm i t ∈ form_events seq) ∧
      Event.OutOfUse i ∉ form_events seq := by
  intro i hi hint
  have hinv := finalSt_inv seq hne
  have hdone := finalSt_done seq ht i hi
  have hpos := numTerms_pos seq hne i hi
  refine ⟨?_, ?_, ?_⟩
  · apply mem_of_count_one
    rw [count_form_events seq _ (by intro h; cases h), hinv.hE i, if_pos (by omega)]
  · intro t htlt
    apply mem_of_count_one
    rw [count_form_events seq _ (by intro h; cases h), hinv.hD i t, if_pos (by omega)]
  · have h : (form_events seq).count (Event.OutOfUse i) = 0 := by
      rw [count_form_events seq _ (by intro h; cases h), hinv.hF i,
        finalSt_freed seq ht hne i, hint]
      simp
    exact List.count_eq_zero.mp h

/-- Claim C4, witness: the theorem applied to R2 (position 4, carrying no
intermediate flag) of the concrete test sequence. -/
theorem c4_results_not_freed_witness :
    topoB exampleSeq = true ∧ nonEmptyTermsB exampleSeq = true ∧
    4 < exampleSeq.length ∧ intermAt exampleSeq 4 = false ∧
    (Event.BeforeComp 4 ∈ form_events exampleSeq ∧
      (∀ t, t < numTerms exampleSeq 4 → Event.CompTerm 4 t ∈ form_events exampleSeq) ∧
      Event.OutOfUse 4 ∉ form_events exampleSeq) :=
  ⟨by decide, by decide, by decide, by decide,
    c4_results_not_freed exampleSeq (by decide) (by decide) 4 (by decide) (by decide)⟩

/-- Claim C5: for every evaluation sequence, the event stream contains exactly
one BeginBody and exactly one EndBody event, the EndBody event is the last
event, and every BeforeCompute, ComputeTerm and OutOfUse event occurs strictly
between them (everything before BeginBody is a TensorDecl). -/
theorem c5_body_bracketing (seq : List Comput) :
    (form_events seq).count Event.BeginBody = 1 ∧
    (form_events seq).count Event.EndBody = 1 ∧
    ∃ p q, form_events seq = p ++ Event.BeginBody :: (q ++ [Event.EndBody]) ∧
      (∀ e ∈ p, ∃ i, e = Event.TensorDecl i) ∧
      (∀ e ∈ q, bodyKindB e = true) := by
  obtain ⟨d, hdec, hall⟩ := form_events_decomp seq
  have hdecl0 : ∀ e : Event, (∀ i, e ≠ Event.TensorDecl i) →
      (declEvents seq).count e = 0 := by
    intro e he
    rw [List.count_eq_zero]
    intro hmem
    obtain ⟨i, hi⟩ := declEvents_all_decl seq e hmem
    exact he i hi
  have hbody0 : ∀ e : Event, bodyKindB e = false → d.count e = 0 := by
    intro e he
    rw [List.count_eq_zero]
    intro hmem
    rw [hall e hmem] at he
    cases he
  have hsplit : form_events seq =
      declEvents seq ++ ([Event.BeginBody] ++ (d ++ [Event.EndBody])) := by
    rw [hdec]
    rfl
  refine ⟨?_, ?_, declEvents seq, d, hdec, declEvents_all_decl seq, hall⟩
  · rw [hsplit, List.count_append, List.count_append, List.count_append,
      hdecl0 Event.BeginBody (fun i h => by cases h), hbody0 Event.BeginBody rfl]
    simp [List.count_singleton]
  · rw [hsplit, List.count_append, List.count_append, List.count_append,
      hdecl0 Event.EndBody (fun i h => by cases h), hbody0 Event.EndBody rfl]
    simp [List.count_singleton]

/-- Claim C6: event-stream generation and rendering-context construction are
deterministic pure functions — two invocations on identical inputs produce
identical event streams and identical contexts. -/
theorem c6_determinism (seq1 seq2 : List Comput)
    (mangle : String → List Index → String) (c1 c2 : Comput)
    (hseq : seq1 = seq2) (hc : c1 = c2) :
    form_events seq1 = form_events seq2 ∧ transl mangle c1 = transl mangle c2 := by
  subst hseq
  subst hc
  exact ⟨rfl, rfl⟩

/-- Claim C6, witness: the theorem applied to the concrete test inputs. -/
theorem c6_determinism_witness :
    exampleSeq = exampleSeq ∧ colourTensor = colourTensor ∧
    (form_events exampleSeq = form_events exampleSeq ∧
      transl mangle0 colourTensor = transl mangle0 colourTensor) :=
  ⟨rfl, rfl, c6_determinism exampleSeq exampleSeq mangle0 colourTensor colourTensor rfl rfl⟩

theorem translIndex_inj (a b : Index) (h : translIndex a = translIndex b) : a = b := by
  cases a
  cases b
  injection h with h1 h2
  subst h1
  subst h2
  rfl

/-- Claim C7: for every computation and every one of its terms, the
summation-index list of the term's rendering context is exactly the term's
dummy (summed) index list, and — when the term's summation indices are
disjoint from the computation's free indices, as the data model requires —
contains no free index of the owning computation; a term with no summations
has an empty summation-index list. -/
theorem c7_summation_indices (mangle : String → List Index → String)
    (c : Comput) (k : Nat) (t : Term) (hk : c.terms[k]? = some t)
    (hdisj : ∀ s ∈ t.sums, s ∉ c.indices) :
    (transl mangle c).terms[k]? = some (translTerm mangle t) ∧
    (translTerm mangle t).sums = t.sums.map translIndex ∧
    (∀ x ∈ (translTerm mangle t).sums, x ∉ (transl mangle c).indices) ∧
    (t.sums = [] → (translTerm mangle t).sums = []) := by
  refine ⟨?_, rfl, ?_, ?_⟩
  · show (c.terms.map (translTerm mangle))[k]? = _
    rw [List.getElem?_map, hk]
    rfl
  · intro x hx hmem
    obtain ⟨sIdx, hs, hxs⟩ := List.mem_map.mp hx
    obtain ⟨fIdx, hf, hxf⟩ := List.mem_map.mp hmem
    have : fIdx = sIdx := translIndex_inj fIdx sIdx (by rw [hxf, ← hxs])
    subst this
    exact hdisj fIdx hs hf
  · intro h
    show t.sums.map translIndex = []
    rw [h]
    rfl

/-- Claim C7, witness: the theorem applied to the transpose term of the
colourful test tensor, whose summation list is empty. -/
theorem c7_summation_indices_witness :
    colourTensor.terms[0]? = some colourTermA ∧
    (∀ s ∈ colourTermA.sums, s ∉ colourTensor.indices) ∧
    ((transl mangle0 colourTensor).terms[0]? = some (translTerm mangle0 colourTermA) ∧
      (translTerm mangle0 colourTermA).sums = colourTermA.sums.map translIndex ∧
      (∀ x ∈ (translTerm mangle0 colourTermA).sums,
        x ∉ (transl mangle0 colourTensor).indices) ∧
      (colourTermA.sums = [] → (translTerm mangle0 colourTermA).sums = [])) :=
  ⟨by decide, by decide,
    c7_summation_indices mangle0 colourTensor 0 colourTermA (by decide) (by decide)⟩

/-- Claim C8: a factor with an integer exponent greater than one is rendered
as a single indexed-factor entry whose base-name string is the mangled base
name suffixed with the exponent, keeping the factor's single index list, and
the context has exactly one entry per factor of the term. -/
theorem c8_exponent_suffix (mangle : String → List Index → String)
    (t : Term) (k : Nat) (f : Factor) (hk : t.factors[k]? = some f)
    (he : 1 < f.exponent) :
    (translTerm mangle t).indexed_factors[k]? =
      some ⟨mangle f.base f.indices ++ "**" ++ toString f.exponent,
        f.indices.map translIndex⟩ ∧
    (translTerm mangle t).indexed_factors.length = t.factors.length := by
  constructor
  · show (t.factors.map (translFactor mangle))[k]? = _
    rw [List.getElem?_map, hk]
    simp only [Option.map_some']
    unfold translFactor
    rw [if_pos he, String.append_assoc]
  · exact List.length_map _ _

/-- Claim C8, witness: the squared factor u[b,a]**2 of the colourful test
tensor renders as the single entry with base-name text u2**2, as the test
asserts. -/
theorem c8_exponent_suffix_witness :
    colourTermA.factors[0]? = some uSq ∧ 1 < uSq.exponent ∧
    ((translTerm mangle0 colourTermA).indexed_factors[0]? =
      some ⟨"u2**2", uSq.indices.map translIndex⟩ ∧
      (translTerm mangle0 colourTermA).indexed_factors.length =
        colourTermA.factors.length) := by
  refine ⟨by decide, by decide, ?_⟩
  have h := c8_exponent_suffix mangle0 colourTermA 0 uSq (by decide) (by decide)
  refine ⟨?_, h.2⟩
  rw [h.1]
  rfl

/-- Claim C9: doprint with separate_decls returns a list of exactly two
strings — the declarations and the body — and joining them with a single
newline yields exactly the string doprint returns without separate_decls. -/
theorem c9_separate_decls (seq : List Comput) :
    (doprintSep seq).length = 2 ∧
    String.intercalate "\n" (doprintSep seq) = doprint seq := by
  refine ⟨rfl, ?_⟩
  show String.intercalate "\n" [declText seq, bodyText seq] =
    declText seq ++ "\n" ++ bodyText seq
  rfl

/-- Claim C10: a computation whose target is a rank-0 tensor (the scalar I3 at
position 2, with an empty index list) is accepted and handled uniformly: it is
declared, receives BeforeCompute and ComputeTerm events, is driven by I1
(its term references position 0) and drives R1 (whose first term references
it), and, being flagged intermediate, receives an OutOfUse event. -/
theorem c10_scalar_target :
    (exampleSeq[2]?).map (fun c => c.indices) = some [] ∧
    (exampleSeq[2]?).map (fun c => c.base) = some "I3" ∧
    intermAt exampleSeq 2 = true ∧
    Event.TensorDecl 2 ∈ form_events exampleSeq ∧
    Event.BeforeComp 2 ∈ form_events exampleSeq ∧
    Event.CompTerm 2 0 ∈ form_events exampleSeq ∧
    Event.OutOfUse 2 ∈ form_events exampleSeq ∧
    refTermB exampleSeq 2 0 0 = true ∧
    refTermB exampleSeq 3 0 2 = true := by
  decide

end Gristmill
